import Mathlib

/-!
Shallow embedding of the `skills` package of wly2lcl/picoclaw:
the fan-out search aggregator (`RegistryManager.SearchAll`) and the
trigram-similarity LRU/TTL search cache (`SearchCache`).

Modelling conventions, stated once:
* Go `float64` scores and similarity values are modelled as rationals (`ℚ`).
  All scores and similarities arising in the code are quotients of small
  integers, on which `float64` comparison agrees with exact rational
  comparison.
* Go strings are modelled at the character level (`String.data`); this
  coincides with Go's byte-level indexing on single-byte (ASCII) strings,
  which is what every test and example in the repository uses.
* `time.Time` / `time.Duration` are modelled as `Nat` instants/durations
  (nanosecond counts); `time.Since(t)` at instant `now` is `now - t`.
* The Go `map[string]*cacheEntry` is modelled as an association list whose
  iteration order is the insertion order; Go's map iteration order is
  unspecified, so any fixed order is a legitimate refinement of it.
* Goroutine/channel concurrency in `SearchAll` is modelled in two ways:
  a sequential model in which the collector drains backend outcomes in
  registration order (the claims about merging and error aggregation are
  insensitive to drain order), and a small-step transition system for the
  semaphore discipline (`SemStep`) for the concurrency-cap claim.
-/

namespace Skills

/-- `SearchResult` mirrors the Go struct: a scored, attributed search hit. -/
structure SearchResult where
  score : ℚ
  slug : String
  displayName : String
  summary : String
  version : String
  registryName : String
deriving DecidableEq, Repr

/-- A registered backend: its name together with its `Search` behaviour.
`Search` either returns an ordered result list or fails with an opaque
error, modelled as a `String` message. -/
structure SkillRegistry where
  name : String
  search : String → Int → Except String (List SearchResult)

/-- Go constant `defaultMaxConcurrentSearches = 2`. -/
def defaultMaxConcurrentSearches : Nat := 2

/-- `RegistryManager` state: the registered backends and the concurrency cap. -/
structure RegistryManager where
  registries : List SkillRegistry
  maxConcurrent : Nat

/-- `NewRegistryManager()`: empty registry list, default concurrency cap. -/
def NewRegistryManager : RegistryManager :=
  { registries := [], maxConcurrent := defaultMaxConcurrentSearches }

/-- `AddRegistry` appends a backend to the collection. -/
def AddRegistry (rm : RegistryManager) (r : SkillRegistry) : RegistryManager :=
  { rm with registries := rm.registries ++ [r] }

/-- One step of the insertion sort in `sortByScoreDesc`: insert `key` into an
already processed prefix, placing it after every element whose score is
`≥ key.score` and before the first element whose score is `< key.score`
(Go shifts while `results[j].Score < key.Score`). -/
def insertDesc (key : SearchResult) : List SearchResult → List SearchResult
  | [] => [key]
  | x :: xs => if x.score < key.score then key :: x :: xs else x :: insertDesc key xs

/-- `sortByScoreDesc`: Go's in-place insertion sort processes indices
`1, 2, …` left to right, inserting each element into the sorted prefix;
functionally this is a left fold of `insertDesc`. -/
def sortByScoreDesc (results : List SearchResult) : List SearchResult :=
  results.foldl (fun acc key => insertDesc key acc) []

/-- The final clamp in `SearchAll`:
`if limit > 0 && len(merged) > limit { merged = merged[:limit] }`. -/
def clampLimit (limit : Int) (merged : List SearchResult) : List SearchResult :=
  if 0 < limit ∧ limit < (merged.length : Int) then merged.take limit.toNat else merged

/-- The per-backend outcomes of one `SearchAll` fan-out, drained in
registration order (sequential model of the result channel). -/
def searchOutcomes (regs : List SkillRegistry) (query : String) (limit : Int) :
    List (Except String (List SearchResult)) :=
  regs.map fun r => r.search query limit

/-- The `merged` accumulator of the collector loop: successful results are
appended in drain order, failures contribute nothing. -/
def mergedOf (outs : List (Except String (List SearchResult))) : List SearchResult :=
  outs.foldl (fun acc o => match o with | .ok rs => acc ++ rs | .error _ => acc) []

/-- The `lastErr` accumulator of the collector loop: the last failure seen. -/
def lastErrOf (outs : List (Except String (List SearchResult))) : Option String :=
  outs.foldl (fun acc o => match o with | .ok _ => acc | .error e => some e) none

/-- The `anyRegistrySucceeded` flag of the collector loop. -/
def anyOk (outs : List (Except String (List SearchResult))) : Bool :=
  outs.foldl (fun acc o => match o with | .ok _ => true | .error _ => acc) false

/-- The two failure shapes of `SearchAll`:
`fmt.Errorf("no registries configured")` and
`fmt.Errorf("all registries failed: %w", lastErr)` (which wraps the last
observed per-backend error). -/
inductive SearchAllError where
  | noRegistries : SearchAllError
  | allFailed (wrapped : String) : SearchAllError
deriving DecidableEq, Repr

/-- `RegistryManager.SearchAll`: fail fast when no backend is registered;
otherwise drain one outcome per backend, and fail only when no backend
succeeded and some failure was observed; otherwise sort the concatenated
successes by score descending and clamp to `limit`. -/
def SearchAll (rm : RegistryManager) (query : String) (limit : Int) :
    Except SearchAllError (List SearchResult) :=
  if rm.registries.isEmpty then .error .noRegistries
  else
    let outs := searchOutcomes rm.registries query limit
    match anyOk outs, lastErrOf outs with
    | false, some e => .error (.allFailed e)
    | _, _ => .ok (clampLimit limit (sortByScoreDesc (mergedOf outs)))

/-! ### Trigram similarity (`buildTrigrams`, `jaccardSimilarity`) -/

/-- Pack three character codes into one 32-bit value, as in
`uint32(s[i])<<16 | uint32(s[i+1])<<8 | uint32(s[i+2])`. -/
def packTri (a b c : Nat) : Nat := (a <<< 16 ||| b <<< 8 ||| c) % 2 ^ 32

/-- The hash of every overlapping 3-character window, in text order
(the loop `for i := 0; i <= len(s)-3; i++`). -/
def triWindows : List Nat → List Nat
  | a :: b :: c :: rest => packTri a b c :: triWindows (b :: c :: rest)
  | _ => []

/-- Insert into an ascending-sorted list (helper for the sorting pass). -/
def insertAsc (x : Nat) : List Nat → List Nat
  | [] => [x]
  | y :: ys => if x ≤ y then x :: y :: ys else y :: insertAsc x ys

/-- Ascending sort of the window hashes. Go uses `sort.Slice` with `<` on
`uint32`; since duplicate numbers are indistinguishable, every correct
sort produces this same list, so an insertion sort is a faithful model. -/
def sortAsc (l : List Nat) : List Nat := l.foldr insertAsc []

/-- The deduplication pass over the sorted hashes (the `n := 1` loop keeps
the first element of each run of equal values). -/
def dedupAdjacent : List Nat → List Nat
  | [] => []
  | [x] => [x]
  | x :: y :: rest =>
    if x = y then dedupAdjacent (y :: rest) else x :: dedupAdjacent (y :: rest)

/-- `buildTrigrams`: empty for strings shorter than 3 characters, otherwise
the sorted, deduplicated window hashes. -/
def buildTrigrams (s : String) : List Nat :=
  let cs := s.data.map Char.toNat
  if cs.length < 3 then [] else dedupAdjacent (sortAsc (triWindows cs))

/-- The linear merge-walk of `jaccardSimilarity` counting common elements of
two ascending lists (`i, j` two-pointer loop). Each iteration advances at
least one of the two pointers, so the loop runs at most `len a + len b`
times; the explicit fuel argument records that bound and makes the
recursion structural. -/
def countInterFuel : Nat → List Nat → List Nat → Nat
  | 0, _, _ => 0
  | _ + 1, [], _ => 0
  | _ + 1, _ :: _, [] => 0
  | fuel + 1, x :: xs, y :: ys =>
    if x = y then countInterFuel fuel xs ys + 1
    else if x < y then countInterFuel fuel xs (y :: ys)
    else countInterFuel fuel (x :: xs) ys

/-- The `intersection` computed by `jaccardSimilarity`'s merge walk. -/
def countInter (a b : List Nat) : Nat := countInterFuel (a.length + b.length) a b

/-- `jaccardSimilarity`: `|A ∩ B| / |A ∪ B|`, with two empty sets declared
identical (similarity 1). `union = len(a) + len(b) - intersection`.
The quotient is built with `mkRat` (kernel-reducible); `jaccard_eq_div`
below shows it equals the literal division of the two counts. -/
def jaccardSimilarity (a b : List Nat) : ℚ :=
  if a.length = 0 ∧ b.length = 0 then 1
  else
    let intersection := countInter a b
    mkRat intersection (a.length + b.length - intersection)

/-- `similarityThreshold = 0.7` (as the exact rational 7/10, which is how
the `float64` comparison behaves on the small quotients that arise). -/
def similarityThreshold : ℚ := mkRat 7 10

/-- `normalizeQuery`: `strings.ToLower(strings.TrimSpace(q))`, at the
character level: drop leading and trailing whitespace, then lower-case
each character (`Char.toLower` agrees with Go's `ToLower` on ASCII). -/
def normalizeQuery (q : String) : String :=
  let trimmed := ((q.data.dropWhile Char.isWhitespace).reverse.dropWhile
    Char.isWhitespace).reverse
  String.mk (trimmed.map Char.toLower)

/-! ### The search cache -/

/-- A cache entry, generic in the representation `ρ` of the stored results
(`ρ = List SearchResult` for the value model, `ρ = Nat` for the heap-reference
model used for the copy-isolation claim). -/
structure CacheEntryG (ρ : Type) where
  query : String
  trigrams : List Nat
  results : ρ
  createdAt : Nat
deriving DecidableEq, Repr

/-- Cache state, generic in the results representation. -/
structure SearchCacheG (ρ : Type) where
  entries : List (String × CacheEntryG ρ)
  order : List String
  maxEntries : Nat
  ttl : Nat
deriving DecidableEq, Repr

/-- The value-model cache entry (`cacheEntry` in Go). -/
abbrev CacheEntry := CacheEntryG (List SearchResult)

/-- The value-model cache (`SearchCache` in Go). -/
abbrev SearchCache := SearchCacheG (List SearchResult)

/-- `NewSearchCache`: non-positive `maxEntries` falls back to 50,
non-positive `ttl` falls back to 5 minutes (in nanoseconds). -/
def NewSearchCache (maxEntries : Int) (ttl : Int) : SearchCache :=
  { entries := []
    order := []
    maxEntries := (if maxEntries ≤ 0 then 50 else maxEntries).toNat
    ttl := (if ttl ≤ 0 then 300000000000 else ttl).toNat }

/-- Go map read `m[k]`: find the entry stored under key `k`. -/
def assocLookup {α : Type} : List (String × α) → String → Option α
  | [], _ => none
  | (k, v) :: rest, key => if k = key then some v else assocLookup rest key

/-- Go map write `m[k] = v` for a key already present: replace in place. -/
def assocReplace {α : Type} : List (String × α) → String → α → List (String × α)
  | [], _, _ => []
  | (k, v) :: rest, key, newV =>
    if k = key then (k, newV) :: rest else (k, v) :: assocReplace rest key newV

/-- Go map `delete(m, k)`: remove the entry stored under key `k`. -/
def assocErase {α : Type} : List (String × α) → String → List (String × α)
  | [], _ => []
  | (k, v) :: rest, key => if k = key then rest else (k, v) :: assocErase rest key

/-- Remove the first occurrence of `key` from a list of keys (the deletion
loop inside `moveToEndLocked`, which breaks after the first match). -/
def removeFirst : List String → String → List String
  | [], _ => []
  | k :: rest, key => if k = key then rest else k :: removeFirst rest key

/-- `moveToEndLocked`: delete the first occurrence of `key` from the recency
order (if any) and append `key` at the tail. -/
def moveToEndLocked {ρ : Type} (sc : SearchCacheG ρ) (key : String) : SearchCacheG ρ :=
  { sc with order := removeFirst sc.order key ++ [key] }

/-- One iteration of the similarity scan in `Get`: skip expired entries,
otherwise keep the entry iff its similarity strictly beats the best so far. -/
def scanStep {ρ : Type} (now ttl : Nat) (qt : List Nat)
    (acc : ℚ × Option (CacheEntryG ρ)) (p : String × CacheEntryG ρ) :
    ℚ × Option (CacheEntryG ρ) :=
  if ttl ≤ now - p.2.createdAt then acc
  else
    let sim := jaccardSimilarity qt p.2.trigrams
    if acc.1 < sim then (sim, some p.2) else acc

/-- The whole similarity scan (`bestSim` starts at 0, `bestEntry` at nil). -/
def scanBest {ρ : Type} (entries : List (String × CacheEntryG ρ)) (now ttl : Nat)
    (qt : List Nat) : ℚ × Option (CacheEntryG ρ) :=
  entries.foldl (scanStep now ttl qt) (0, none)

/-- `copyResults`: a defensive copy. On immutable Lean lists a copy is
value-equal to the original; the heap model below accounts for the fresh
backing storage the Go code allocates. -/
def copyResults (results : List SearchResult) : List SearchResult := results

/-- The similarity-match half of `Get` (runs when the exact lookup missed or
was expired): scan, then hit iff the best similarity reaches the threshold. -/
def getScan (sc : SearchCache) (now : Nat) (normalized : String) :
    List SearchResult × Bool × SearchCache :=
  let best := scanBest sc.entries now sc.ttl (buildTrigrams normalized)
  match best.2 with
  | some bestEntry =>
    if similarityThreshold ≤ best.1 then
      (copyResults bestEntry.results, true, moveToEndLocked sc bestEntry.query)
    else ([], false, sc)
  | none => ([], false, sc)

/-- `SearchCache.Get`: empty normalized query misses; a live exact match hits
and refreshes recency; otherwise fall through to the similarity scan. -/
def Get (sc : SearchCache) (now : Nat) (query : String) :
    List SearchResult × Bool × SearchCache :=
  let normalized := normalizeQuery query
  if normalized = "" then ([], false, sc)
  else
    match assocLookup sc.entries normalized with
    | some entry =>
      if now - entry.createdAt < sc.ttl then
        (copyResults entry.results, true, moveToEndLocked sc normalized)
      else getScan sc now normalized
    | none => getScan sc now normalized

/-- One iteration of `evictExpiredLocked`'s sweep over the recency order:
keys that are absent or expired are deleted from the mapping and dropped
from the rebuilt order; live keys are kept. -/
def evictStep {ρ : Type} (now ttl : Nat)
    (st : List (String × CacheEntryG ρ) × List String) (key : String) :
    List (String × CacheEntryG ρ) × List String :=
  match assocLookup st.1 key with
  | none => st
  | some e => if ttl ≤ now - e.createdAt then (assocErase st.1 key, st.2)
              else (st.1, st.2 ++ [key])

/-- `evictExpiredLocked`: lazy TTL sweep, rebuilding the recency order. -/
def evictExpiredLocked {ρ : Type} (sc : SearchCacheG ρ) (now : Nat) : SearchCacheG ρ :=
  let st := sc.order.foldl (evictStep now sc.ttl) (sc.entries, [])
  { sc with entries := st.1, order := st.2 }

/-- The capacity-eviction loop of `Put`:
`for len(entries) >= maxEntries && len(order) > 0` evict the head of the
recency order from both structures. -/
def evictLRULoop {ρ : Type} (maxEntries : Nat) :
    List (String × CacheEntryG ρ) → List String →
    List (String × CacheEntryG ρ) × List String
  | entries, [] => (entries, [])
  | entries, oldest :: rest =>
    if maxEntries ≤ entries.length then
      evictLRULoop maxEntries (assocErase entries oldest) rest
    else (entries, oldest :: rest)

/-- The tail of `Put` after normalization and the TTL sweep, generic in the
results representation: overwrite-and-refresh for an existing key, else
evict-at-capacity and append the new entry as most recently used. -/
def putNormalized {ρ : Type} (sc : SearchCacheG ρ) (normalized : String)
    (e : CacheEntryG ρ) : SearchCacheG ρ :=
  match assocLookup sc.entries normalized with
  | some _ =>
    moveToEndLocked { sc with entries := assocReplace sc.entries normalized e } normalized
  | none =>
    let st := evictLRULoop sc.maxEntries sc.entries sc.order
    { sc with entries := st.1 ++ [(normalized, e)], order := st.2 ++ [normalized] }

/-- `SearchCache.Put`: no-op on an empty normalized query; otherwise sweep
expired entries and store a fresh entry (new trigrams, copied results, new
timestamp) under the normalized key. -/
def Put (sc : SearchCache) (now : Nat) (query : String)
    (results : List SearchResult) : SearchCache :=
  let normalized := normalizeQuery query
  if normalized = "" then sc
  else
    putNormalized (evictExpiredLocked sc now) normalized
      { query := normalized
        trigrams := buildTrigrams normalized
        results := copyResults results
        createdAt := now }

/-- `SearchCache.Len`: the number of entries. -/
def Len (sc : SearchCache) : Nat := sc.entries.length

/-! ### Heap model of result slices

Go slices alias a mutable backing array. To express the copy-isolation
contract of `copyResults`, the cache is re-run with entries that store a
*reference* (an index into an explicit heap of result sequences) instead
of the value. `PutH`/`GetH` are `Put`/`Get` with the slice flows made
explicit: every `copyResults` call in the Go source becomes an allocation
of a fresh cell holding the copied contents. -/

/-- The heap of result-slice backing arrays; a reference is an index. -/
abbrev Heap := List (List SearchResult)

/-- Dereference a slice. -/
def heapRead (h : Heap) (r : Nat) : List SearchResult := h.getD r []

/-- Mutate the array behind a slice (the caller writing through an alias). -/
def heapWrite (h : Heap) (r : Nat) (v : List SearchResult) : Heap := h.set r v

/-- Allocate a fresh backing array; the new reference did not exist before. -/
def heapAlloc (h : Heap) (v : List SearchResult) : Heap × Nat := (h ++ [v], h.length)

/-- The heap-model cache: entries hold references to their results. -/
abbrev SearchCacheH := SearchCacheG Nat

/-- The references the cache currently holds (one per entry). -/
def cacheRefs (sc : SearchCacheH) : List Nat := sc.entries.map fun p => p.2.results

/-- `Put` in the heap model: `copyResults(results)` reads the caller's slice
and allocates a fresh cell for the copy; the cache stores only the fresh
reference. -/
def PutH (h : Heap) (sc : SearchCacheH) (now : Nat) (query : String) (rIn : Nat) :
    Heap × SearchCacheH :=
  let normalized := normalizeQuery query
  if normalized = "" then (h, sc)
  else
    let alloc := heapAlloc h (copyResults (heapRead h rIn))
    (alloc.1,
      putNormalized (evictExpiredLocked sc now) normalized
        { query := normalized
          trigrams := buildTrigrams normalized
          results := alloc.2
          createdAt := now })

/-- The similarity-match half of `Get` in the heap model: on a hit, a fresh
cell holding a copy of the stored results is returned. -/
def getScanH (h : Heap) (sc : SearchCacheH) (now : Nat) (normalized : String) :
    Heap × Option Nat × SearchCacheH :=
  let best := scanBest sc.entries now sc.ttl (buildTrigrams normalized)
  match best.2 with
  | some bestEntry =>
    if similarityThreshold ≤ best.1 then
      let alloc := heapAlloc h (copyResults (heapRead h bestEntry.results))
      (alloc.1, some alloc.2, moveToEndLocked sc bestEntry.query)
    else (h, none, sc)
  | none => (h, none, sc)

/-- `Get` in the heap model: a hit returns a reference to a fresh copy of the
stored results (`copyResults(entry.results)`); a miss returns no reference. -/
def GetH (h : Heap) (sc : SearchCacheH) (now : Nat) (query : String) :
    Heap × Option Nat × SearchCacheH :=
  let normalized := normalizeQuery query
  if normalized = "" then (h, none, sc)
  else
    match assocLookup sc.entries normalized with
    | some entry =>
      if now - entry.createdAt < sc.ttl then
        let alloc := heapAlloc h (copyResults (heapRead h entry.results))
        (alloc.1, some alloc.2, moveToEndLocked sc normalized)
      else getScanH h sc now normalized
    | none => getScanH h sc now normalized

/-! ### Semaphore transition system for the `SearchAll` fan-out

The goroutine body of `SearchAll` (source lines 407-429) is, per unit of
work: block on `sem <- struct{}{}` (or give up on cancellation), call
`Search`, then release the slot unconditionally (`defer func() { <-sem }()`
runs on success and failure alike). The phases below are exactly the
program points of one unit; a slot is held precisely while a unit is in
its backend call. -/

/-- Program points of one unit of work in the fan-out. -/
inductive UnitPhase where
  | notStarted : UnitPhase
  | waiting : UnitPhase
  | inSearch : UnitPhase
  | done : UnitPhase
deriving DecidableEq, Repr

/-- Number of units currently holding a semaphore slot (in their backend
call). -/
def inFlight (phases : List UnitPhase) : Nat :=
  phases.countP (fun p => p = UnitPhase.inSearch)

/-- Interleaving semantics of the fan-out's semaphore discipline: the
scheduler may start a unit, let a waiting unit acquire a slot only when
fewer than `maxConcurrent` are held, let a waiting unit give up on
cancellation (reporting the cancellation without ever searching), or let
a searching unit finish (success or failure), which releases its slot. -/
inductive SemStep (maxConcurrent : Nat) : List UnitPhase → List UnitPhase → Prop
  | start (l₁ l₂ : List UnitPhase) :
      SemStep maxConcurrent (l₁ ++ UnitPhase.notStarted :: l₂)
        (l₁ ++ UnitPhase.waiting :: l₂)
  | acquire (l₁ l₂ : List UnitPhase)
      (hslot : inFlight (l₁ ++ UnitPhase.waiting :: l₂) < maxConcurrent) :
      SemStep maxConcurrent (l₁ ++ UnitPhase.waiting :: l₂)
        (l₁ ++ UnitPhase.inSearch :: l₂)
  | cancelWait (l₁ l₂ : List UnitPhase) :
      SemStep maxConcurrent (l₁ ++ UnitPhase.waiting :: l₂)
        (l₁ ++ UnitPhase.done :: l₂)
  | finish (l₁ l₂ : List UnitPhase) :
      SemStep maxConcurrent (l₁ ++ UnitPhase.inSearch :: l₂)
        (l₁ ++ UnitPhase.done :: l₂)

/-- All interleavings of one `SearchAll` call over `n` backends: states
reachable from every unit not yet started. -/
def SemReachable (maxConcurrent n : Nat) (s : List UnitPhase) : Prop :=
  Relation.ReflTransGen (SemStep maxConcurrent)
    (List.replicate n UnitPhase.notStarted) s

/-! ### Lemmas: the semaphore discipline -/

lemma inFlight_append (l₁ l₂ : List UnitPhase) :
    inFlight (l₁ ++ l₂) = inFlight l₁ + inFlight l₂ := by
  simp [inFlight, List.countP_append]

lemma inFlight_cons (p : UnitPhase) (l : List UnitPhase) :
    inFlight (p :: l) = inFlight l + (if p = UnitPhase.inSearch then 1 else 0) := by
  by_cases h : p = UnitPhase.inSearch <;> simp [inFlight, List.countP_cons, h]

lemma semStep_preserves_cap {maxConcurrent : Nat} {s t : List UnitPhase}
    (hstep : SemStep maxConcurrent s t) (hs : inFlight s ≤ maxConcurrent) :
    inFlight t ≤ maxConcurrent := by
  cases hstep with
  | start l₁ l₂ =>
    simp [inFlight_append, inFlight_cons] at hs ⊢
    omega
  | acquire l₁ l₂ hslot =>
    simp [inFlight_append, inFlight_cons] at hslot ⊢
    omega
  | cancelWait l₁ l₂ =>
    simp [inFlight_append, inFlight_cons] at hs ⊢
    omega
  | finish l₁ l₂ =>
    simp [inFlight_append, inFlight_cons] at hs ⊢
    omega

/-! ### Lemmas: the descending stable insertion sort -/

/-- The intended order of the merged result list: scores descending. -/
def byScoreDesc (a b : SearchResult) : Prop := b.score ≤ a.score

lemma insertDesc_perm (key : SearchResult) (l : List SearchResult) :
    List.Perm (insertDesc key l) (key :: l) := by
  induction l with
  | nil => simp [insertDesc]
  | cons x xs ih =>
    simp only [insertDesc]
    split
    · exact List.Perm.refl _
    · exact List.Perm.trans (List.Perm.cons x ih) (List.Perm.swap key x xs)

lemma mem_insertDesc {key b : SearchResult} {l : List SearchResult}
    (h : b ∈ insertDesc key l) : b = key ∨ b ∈ l := by
  have := (insertDesc_perm key l).mem_iff.mp h
  simpa using this

lemma insertDesc_sorted (key : SearchResult) {l : List SearchResult}
    (h : List.Sorted byScoreDesc l) :
    List.Sorted byScoreDesc (insertDesc key l) := by
  induction l with
  | nil => simp [insertDesc, byScoreDesc]
  | cons x xs ih =>
    rw [List.sorted_cons] at h
    obtain ⟨hx, hxs⟩ := h
    simp only [insertDesc]
    split
    · rename_i hlt
      rw [List.sorted_cons]
      refine ⟨?_, (List.sorted_cons).mpr ⟨hx, hxs⟩⟩
      intro b hb
      rcases List.mem_cons.mp hb with rfl | hbxs
      · exact le_of_lt hlt
      · exact le_trans (hx b hbxs) (le_of_lt hlt)
    · rename_i hge
      rw [List.sorted_cons]
      refine ⟨?_, ih hxs⟩
      intro b hb
      rcases mem_insertDesc hb with rfl | hbxs
      · exact not_lt.mp hge
      · exact hx b hbxs

lemma insertDesc_filter (key : SearchResult) {l : List SearchResult}
    (h : List.Sorted byScoreDesc l) (s : ℚ) :
    (insertDesc key l).filter (fun r => decide (r.score = s)) =
      l.filter (fun r => decide (r.score = s)) ++
        (if key.score = s then [key] else []) := by
  induction l with
  | nil => by_cases hks : key.score = s <;> simp [insertDesc, List.filter, hks]
  | cons x xs ih =>
    rw [List.sorted_cons] at h
    obtain ⟨hx, hxs⟩ := h
    simp only [insertDesc]
    split
    · rename_i hlt
      by_cases hks : key.score = s
      · have hnone : (x :: xs).filter (fun r => decide (r.score = s)) = [] := by
          rw [List.filter_eq_nil_iff]
          intro b hb
          simp only [decide_eq_true_eq]
          rcases List.mem_cons.mp hb with rfl | hbxs
          · exact ne_of_lt (hks ▸ hlt)
          · exact ne_of_lt (hks ▸ lt_of_le_of_lt (hx b hbxs) hlt)
        simp [List.filter_cons, hnone, hks]
      · simp [List.filter_cons, hks]
    · rename_i hge
      by_cases hxv : x.score = s <;>
        simp [List.filter_cons, hxv, ih hxs]

lemma foldl_insertDesc_sorted (l : List SearchResult) (acc : List SearchResult)
    (h : List.Sorted byScoreDesc acc) :
    List.Sorted byScoreDesc (l.foldl (fun a k => insertDesc k a) acc) := by
  induction l generalizing acc with
  | nil => exact h
  | cons x xs ih => exact ih _ (insertDesc_sorted x h)

lemma foldl_insertDesc_perm (l : List SearchResult) (acc : List SearchResult) :
    List.Perm (l.foldl (fun a k => insertDesc k a) acc) (acc ++ l) := by
  induction l generalizing acc with
  | nil => simp
  | cons x xs ih =>
    refine List.Perm.trans (ih (insertDesc x acc)) ?_
    have h1 : List.Perm (insertDesc x acc ++ xs) ((x :: acc) ++ xs) :=
      List.Perm.append_right xs (insertDesc_perm x acc)
    refine List.Perm.trans h1 ?_
    simpa using (@List.perm_middle _ x acc xs).symm

lemma foldl_insertDesc_filter (l : List SearchResult) (acc : List SearchResult)
    (h : List.Sorted byScoreDesc acc) (s : ℚ) :
    (l.foldl (fun a k => insertDesc k a) acc).filter (fun r => decide (r.score = s)) =
      acc.filter (fun r => decide (r.score = s)) ++
        l.filter (fun r => decide (r.score = s)) := by
  induction l generalizing acc with
  | nil => simp
  | cons x xs ih =>
    rw [List.foldl_cons, ih _ (insertDesc_sorted x h),
      insertDesc_filter x h s]
    by_cases hxv : x.score = s <;> simp [List.filter_cons, hxv]

lemma sortByScoreDesc_sorted (l : List SearchResult) :
    List.Sorted byScoreDesc (sortByScoreDesc l) :=
  foldl_insertDesc_sorted l [] (by simp)

lemma sortByScoreDesc_perm (l : List SearchResult) :
    List.Perm (sortByScoreDesc l) l := by
  simpa using foldl_insertDesc_perm l []

lemma sortByScoreDesc_filter (l : List SearchResult) (s : ℚ) :
    (sortByScoreDesc l).filter (fun r => decide (r.score = s)) =
      l.filter (fun r => decide (r.score = s)) := by
  simpa using foldl_insertDesc_filter l [] (by simp) s

lemma clampLimit_sorted {limit : Int} {l : List SearchResult}
    (h : List.Sorted byScoreDesc l) :
    List.Sorted byScoreDesc (clampLimit limit l) := by
  rw [clampLimit]
  split
  · exact List.Pairwise.sublist (List.take_sublist _ _) h
  · exact h

/-! ### Lemmas: collector outcome accounting -/

lemma anyOk_spec (outs : List (Except String (List SearchResult))) :
    ∀ acc : Bool,
      outs.foldl (fun acc o => match o with | .ok _ => true | .error _ => acc) acc =
        (acc || outs.any (fun o => o.toOption.isSome)) := by
  induction outs with
  | nil => intro acc; simp
  | cons o outs ih =>
    intro acc
    cases o with
    | ok rs => cases acc <;> simp [List.foldl_cons, ih, Except.toOption]
    | error e => cases acc <;> simp [List.foldl_cons, ih, Except.toOption]

lemma anyOk_eq_false_iff (outs : List (Except String (List SearchResult))) :
    anyOk outs = false ↔ ∀ o ∈ outs, o.toOption = none := by
  rw [anyOk, anyOk_spec outs false]
  simp only [Bool.false_or, List.any_eq_false]
  constructor
  · intro h o ho
    have hfalse := h o ho
    cases hoo : o.toOption with
    | none => rfl
    | some v => rw [hoo] at hfalse; exact absurd rfl hfalse
  · intro h o ho
    simp [h o ho]

lemma lastErr_fold_isSome (outs : List (Except String (List SearchResult))) :
    ∀ acc : Option String, (∀ o ∈ outs, o.toOption = none) →
      (acc.isSome = true ∨ outs ≠ []) →
      (outs.foldl (fun acc o => match o with | .ok _ => acc | .error e => some e)
        acc).isSome = true := by
  induction outs with
  | nil =>
    intro acc _ hne
    rcases hne with h | h
    · exact h
    · exact absurd rfl h
  | cons o outs ih =>
    intro acc hall _
    cases o with
    | ok rs => exact absurd (hall (Except.ok rs) (by simp)) (by simp [Except.toOption])
    | error e =>
      simp only [List.foldl_cons]
      exact ih (some e) (fun o' ho' => hall o' (by simp [ho'])) (Or.inl rfl)

lemma lastErrOf_isSome (outs : List (Except String (List SearchResult)))
    (hne : outs ≠ []) (hall : ∀ o ∈ outs, o.toOption = none) :
    ∃ e, lastErrOf outs = some e := by
  have := lastErr_fold_isSome outs none hall (Or.inr hne)
  rw [lastErrOf]
  exact Option.isSome_iff_exists.mp this

lemma searchAll_reduce_ok {rm : RegistryManager} {query : String} {limit : Int}
    (hne : rm.registries ≠ [])
    (hA : anyOk (searchOutcomes rm.registries query limit) = true) :
    SearchAll rm query limit =
      Except.ok (clampLimit limit (sortByScoreDesc
        (mergedOf (searchOutcomes rm.registries query limit)))) := by
  have hemp : rm.registries.isEmpty = false := by
    cases hr : rm.registries with
    | nil => exact absurd hr hne
    | cons a l => rfl
  rcases hE : lastErrOf (searchOutcomes rm.registries query limit) with _ | e
  all_goals simp only [SearchAll, hemp, Bool.false_eq_true, if_false, hA, hE]

lemma searchAll_reduce_err {rm : RegistryManager} {query : String} {limit : Int}
    {e : String} (hne : rm.registries ≠ [])
    (hA : anyOk (searchOutcomes rm.registries query limit) = false)
    (hE : lastErrOf (searchOutcomes rm.registries query limit) = some e) :
    SearchAll rm query limit = Except.error (SearchAllError.allFailed e) := by
  have hemp : rm.registries.isEmpty = false := by
    cases hr : rm.registries with
    | nil => exact absurd hr hne
    | cons a l => rfl
  simp only [SearchAll, hemp, Bool.false_eq_true, if_false, hA, hE]

/-! ### Claim theorems: aggregator and concurrency -/

/-- C1: with at least one registered backend, if at least one backend's
`Search` succeeds then `SearchAll` succeeds with the concatenation of the
succeeding backends' results (sorted and clamped as specified elsewhere),
even when other backends fail; if every backend fails, `SearchAll` returns
an error wrapping the last observed per-backend failure. -/
theorem searchAll_partial_failure_tolerance (rm : RegistryManager)
    (query : String) (limit : Int) (hne : rm.registries ≠ []) :
    ((∃ o ∈ searchOutcomes rm.registries query limit, o.toOption ≠ none) →
      SearchAll rm query limit =
        Except.ok (clampLimit limit (sortByScoreDesc
          (mergedOf (searchOutcomes rm.registries query limit))))) ∧
    ((∀ o ∈ searchOutcomes rm.registries query limit, o.toOption = none) →
      ∃ e, lastErrOf (searchOutcomes rm.registries query limit) = some e ∧
        SearchAll rm query limit = Except.error (SearchAllError.allFailed e)) := by
  constructor
  · intro hex
    apply searchAll_reduce_ok hne
    cases hA : anyOk (searchOutcomes rm.registries query limit) with
    | true => rfl
    | false =>
      obtain ⟨o, ho, hno⟩ := hex
      exact absurd ((anyOk_eq_false_iff _).mp hA o ho) hno
  · intro hall
    have hone : searchOutcomes rm.registries query limit ≠ [] := by
      intro hmap
      exact hne (List.map_eq_nil_iff.mp hmap)
    obtain ⟨e, hE⟩ := lastErrOf_isSome _ hone hall
    exact ⟨e, hE, searchAll_reduce_err hne ((anyOk_eq_false_iff _).mpr hall) hE⟩

/-- Fixture: one concrete search result. -/
def witResultA : SearchResult :=
  { score := 1, slug := "a", displayName := "", summary := "",
    version := "", registryName := "r-ok" }

/-- Fixture: a backend that succeeds with one result of score 1. -/
def witRegOk : SkillRegistry :=
  { name := "r-ok", search := fun _ _ => Except.ok [witResultA] }

/-- Fixture: backends that always fail. -/
def witRegFail : SkillRegistry :=
  { name := "r-fail", search := fun _ _ => Except.error "boom" }

/-- Fixture: a second failing backend, observed last. -/
def witRegFail2 : SkillRegistry :=
  { name := "r-fail2", search := fun _ _ => Except.error "bang" }

theorem searchAll_partial_failure_tolerance_witness :
    (SearchAll { registries := [witRegOk, witRegFail], maxConcurrent := 2 } "q" 10 =
      Except.ok (clampLimit 10 (sortByScoreDesc
        (mergedOf (searchOutcomes [witRegOk, witRegFail] "q" 10))))) ∧
    (∃ e, lastErrOf (searchOutcomes [witRegFail, witRegFail2] "q" 10) = some e ∧
      SearchAll { registries := [witRegFail, witRegFail2], maxConcurrent := 2 } "q" 10 =
        Except.error (SearchAllError.allFailed e)) :=
  ⟨(searchAll_partial_failure_tolerance
      { registries := [witRegOk, witRegFail], maxConcurrent := 2 } "q" 10
      (by simp)).1
      ⟨Except.ok [witResultA],
        by simp [searchOutcomes, witRegOk, witRegFail],
        by simp [Except.toOption]⟩,
    (searchAll_partial_failure_tolerance
      { registries := [witRegFail, witRegFail2], maxConcurrent := 2 } "q" 10
      (by simp)).2
      (by
        intro o ho
        simp [searchOutcomes, witRegFail, witRegFail2] at ho
        rcases ho with rfl | rfl <;> rfl)⟩

/-- C6: the merged `SearchAll` result sequence is sorted by score descending
with a stable sort: `sortByScoreDesc` permutes its input, sorts it
descending by score, and preserves the relative order of equal-score
elements (their filtered subsequence is unchanged); consequently every
successful `SearchAll` returns a descending-sorted list. -/
theorem sortByScoreDesc_stable_descending :
    (∀ l : List SearchResult,
        List.Perm (sortByScoreDesc l) l ∧
        List.Sorted byScoreDesc (sortByScoreDesc l) ∧
        ∀ s : ℚ, (sortByScoreDesc l).filter (fun r => decide (r.score = s)) =
          l.filter (fun r => decide (r.score = s))) ∧
    (∀ (rm : RegistryManager) (query : String) (limit : Int)
        (res : List SearchResult),
        SearchAll rm query limit = Except.ok res →
        List.Sorted byScoreDesc res) := by
  constructor
  · intro l
    exact ⟨sortByScoreDesc_perm l, sortByScoreDesc_sorted l,
      fun s => sortByScoreDesc_filter l s⟩
  · intro rm query limit res hok
    simp only [SearchAll] at hok
    split at hok
    · exact absurd hok (by simp)
    · split at hok
      · exact absurd hok (by simp)
      · rw [Except.ok.injEq] at hok
        rw [← hok]
        exact clampLimit_sorted (sortByScoreDesc_sorted _)

theorem sortByScoreDesc_stable_descending_witness :
    List.Sorted byScoreDesc
      (clampLimit 10 (sortByScoreDesc
        (mergedOf (searchOutcomes [witRegOk, witRegFail] "q" 10)))) :=
  sortByScoreDesc_stable_descending.2
    { registries := [witRegOk, witRegFail], maxConcurrent := 2 } "q" 10 _
    (searchAll_reduce_ok (by simp) (by rfl))

/-- C9: during a single `SearchAll` call, at most `maxConcurrent` backend
`Search` calls are in flight at any instant: in every state reachable by
the semaphore discipline of the fan-out (acquire a slot before searching,
release it unconditionally afterwards), the number of units inside their
backend call is bounded by `maxConcurrent`; the unconfigured default cap
is 2. -/
theorem searchAll_concurrency_cap (maxConcurrent n : Nat) (s : List UnitPhase)
    (h : SemReachable maxConcurrent n s) :
    inFlight s ≤ maxConcurrent ∧
      NewRegistryManager.maxConcurrent = 2 := by
  refine ⟨?_, rfl⟩
  induction h with
  | refl =>
    have hz : ∀ m : Nat, inFlight (List.replicate m UnitPhase.notStarted) = 0 := by
      intro m
      induction m with
      | zero => rfl
      | succ k ih => rw [List.replicate_succ, inFlight_cons, ih]; simp
    rw [hz n]
    exact Nat.zero_le _
  | tail hsteps hstep ih => exact semStep_preserves_cap hstep ih

theorem searchAll_concurrency_cap_witness :
    inFlight [UnitPhase.inSearch, UnitPhase.notStarted] ≤ 2 ∧
      NewRegistryManager.maxConcurrent = 2 :=
  searchAll_concurrency_cap 2 2 [UnitPhase.inSearch, UnitPhase.notStarted]
    (Relation.ReflTransGen.tail
      (Relation.ReflTransGen.tail Relation.ReflTransGen.refl
        (SemStep.start [] [UnitPhase.notStarted]))
      (SemStep.acquire [] [UnitPhase.notStarted] (by decide)))

/-! ### Lemmas: association-list model of the Go map -/

lemma assocLookup_eq_none {α : Type} {l : List (String × α)} {k : String} :
    assocLookup l k = none ↔ k ∉ l.map Prod.fst := by
  induction l with
  | nil => simp [assocLookup]
  | cons p rest ih =>
    obtain ⟨k', v⟩ := p
    by_cases hk : k' = k
    · subst hk
      simp [assocLookup]
    · simp [assocLookup, hk, ih, Ne.symm hk]

lemma assocLookup_some_mem {α : Type} {l : List (String × α)} {k : String} {v : α}
    (h : assocLookup l k = some v) : (k, v) ∈ l := by
  induction l with
  | nil => simp [assocLookup] at h
  | cons p rest ih =>
    obtain ⟨k', w⟩ := p
    rw [assocLookup] at h
    split at h
    · rename_i hk
      rw [Option.some.injEq] at h
      subst hk; subst h
      exact List.mem_cons_self _ _
    · exact List.mem_cons_of_mem _ (ih h)

lemma assocLookup_isSome_iff {α : Type} {l : List (String × α)} {k : String} :
    (assocLookup l k).isSome = true ↔ k ∈ l.map Prod.fst := by
  cases h : assocLookup l k with
  | none =>
    simp only [Option.isSome_none, Bool.false_eq_true, false_iff]
    exact assocLookup_eq_none.mp h
  | some v =>
    simp only [Option.isSome_some, true_iff]
    exact List.mem_map.mpr ⟨(k, v), assocLookup_some_mem h, rfl⟩

lemma assocLookup_append_of_none {α : Type} {l : List (String × α)} {k : String}
    (m : List (String × α)) (h : assocLookup l k = none) :
    assocLookup (l ++ m) k = assocLookup m k := by
  induction l with
  | nil => simp
  | cons p rest ih =>
    obtain ⟨k', w⟩ := p
    rw [assocLookup] at h
    rw [List.cons_append, assocLookup]
    split at h
    · exact absurd h (by simp)
    · rename_i hk
      rw [if_neg hk]
      exact ih h

lemma assocLookup_append_of_some {α : Type} {l m : List (String × α)} {k : String}
    {v : α} (h : assocLookup l k = some v) :
    assocLookup (l ++ m) k = some v := by
  induction l with
  | nil => simp [assocLookup] at h
  | cons p rest ih =>
    obtain ⟨k', w⟩ := p
    rw [assocLookup] at h
    rw [List.cons_append, assocLookup]
    split at h
    · rename_i hk
      rw [if_pos hk]
      exact h
    · rename_i hk
      rw [if_neg hk]
      exact ih h

lemma assocErase_sublist {α : Type} (l : List (String × α)) (k : String) :
    List.Sublist (assocErase l k) l := by
  induction l with
  | nil => simp [assocErase]
  | cons p rest ih =>
    rw [assocErase]
    split
    · exact List.sublist_cons_self p rest
    · exact List.Sublist.cons₂ p ih

lemma keys_assocErase {α : Type} (l : List (String × α)) (k : String) :
    (assocErase l k).map Prod.fst = removeFirst (l.map Prod.fst) k := by
  induction l with
  | nil => simp [assocErase, removeFirst]
  | cons p rest ih =>
    rw [assocErase, List.map_cons, removeFirst]
    split
    · rfl
    · simp [ih]

lemma length_assocErase_of_mem {α : Type} {l : List (String × α)} {k : String}
    (h : k ∈ l.map Prod.fst) : (assocErase l k).length + 1 = l.length := by
  induction l with
  | nil => simp at h
  | cons p rest ih =>
    rw [assocErase]
    split
    · simp
    · rename_i hk
      rw [List.map_cons] at h
      rcases List.mem_cons.mp h with rfl | hmem
      · exact absurd rfl hk
      · rw [List.length_cons, List.length_cons, ih hmem]

lemma keys_assocReplace {α : Type} (l : List (String × α)) (k : String) (v : α) :
    (assocReplace l k v).map Prod.fst = l.map Prod.fst := by
  induction l with
  | nil => simp [assocReplace]
  | cons p rest ih =>
    rw [assocReplace]
    split
    · rename_i hk
      rw [List.map_cons, List.map_cons, hk]
    · rw [List.map_cons, List.map_cons, ih]

lemma length_assocReplace {α : Type} (l : List (String × α)) (k : String) (v : α) :
    (assocReplace l k v).length = l.length := by
  induction l with
  | nil => rfl
  | cons p rest ih =>
    rw [assocReplace]
    split
    · simp
    · rw [List.length_cons, List.length_cons, ih]

lemma assocLookup_assocReplace_self {α : Type} {l : List (String × α)} {k : String}
    (v : α) (h : (assocLookup l k).isSome = true) :
    assocLookup (assocReplace l k v) k = some v := by
  induction l with
  | nil => simp [assocLookup] at h
  | cons p rest ih =>
    obtain ⟨k', w⟩ := p
    rw [assocLookup] at h
    rw [assocReplace]
    split
    · rename_i hk
      rw [assocLookup, if_pos hk]
    · rename_i hk
      rw [assocLookup, if_neg hk]
      rw [if_neg hk] at h
      exact ih h

lemma mem_assocReplace {α : Type} {l : List (String × α)} {k : String} {v : α}
    {p : String × α} (h : p ∈ assocReplace l k v) : p ∈ l ∨ p = (k, v) := by
  induction l with
  | nil => simp [assocReplace] at h
  | cons q rest ih =>
    obtain ⟨k', w⟩ := q
    rw [assocReplace] at h
    split at h
    · rename_i hk
      rcases List.mem_cons.mp h with rfl | hmem
      · right; rw [hk]
      · left; exact List.mem_cons_of_mem _ hmem
    · rcases List.mem_cons.mp h with rfl | hmem
      · left; exact List.mem_cons_self _ _
      · rcases ih hmem with hl | hr
        · left; exact List.mem_cons_of_mem _ hl
        · right; exact hr

/-! ### Lemmas: `removeFirst` (the deletion loop of `moveToEndLocked`) -/

lemma removeFirst_sublist (l : List String) (k : String) :
    List.Sublist (removeFirst l k) l := by
  induction l with
  | nil => simp [removeFirst]
  | cons x rest ih =>
    rw [removeFirst]
    split
    · exact List.sublist_cons_self x rest
    · exact List.Sublist.cons₂ x ih

lemma mem_removeFirst_of_nodup {l : List String} {k x : String} (h : l.Nodup) :
    x ∈ removeFirst l k ↔ x ∈ l ∧ x ≠ k := by
  induction l with
  | nil => simp [removeFirst]
  | cons y rest ih =>
    rw [List.nodup_cons] at h
    obtain ⟨hy, hrest⟩ := h
    rw [removeFirst]
    split
    · rename_i hk
      subst hk
      constructor
      · intro hx
        exact ⟨List.mem_cons_of_mem _ hx, fun hxy => hy (hxy ▸ hx)⟩
      · intro ⟨hx, hne⟩
        rcases List.mem_cons.mp hx with rfl | hmem
        · exact absurd rfl hne
        · exact hmem
    · rename_i hk
      rw [List.mem_cons, ih hrest, List.mem_cons]
      constructor
      · rintro (rfl | ⟨hmem, hne⟩)
        · exact ⟨Or.inl rfl, fun hxk => hk hxk⟩
        · exact ⟨Or.inr hmem, hne⟩
      · rintro ⟨rfl | hmem, hne⟩
        · exact Or.inl rfl
        · exact Or.inr ⟨hmem, hne⟩

lemma not_mem_removeFirst_self {l : List String} {k : String} (h : l.Nodup) :
    k ∉ removeFirst l k := by
  rw [mem_removeFirst_of_nodup h]
  rintro ⟨_, hne⟩
  exact hne rfl

lemma moveToEnd_order_nodup {l : List String} {k : String} (h : l.Nodup) :
    (removeFirst l k ++ [k]).Nodup := by
  rw [(List.perm_append_singleton k (removeFirst l k)).nodup_iff, List.nodup_cons]
  exact ⟨not_mem_removeFirst_self h, (removeFirst_sublist l k).nodup h⟩

/-! ### The cache well-formedness invariant -/

/-- Well-formedness of a cache state: the capacity is positive (guaranteed
by `NewSearchCache`), the entry count respects it, the recency order and
the key set are duplicate-free, the recency order holds exactly the keys
of the entry mapping, and each stored entry records its own key and that
key's trigram set. -/
def Inv {ρ : Type} (sc : SearchCacheG ρ) : Prop :=
  1 ≤ sc.maxEntries ∧
  sc.entries.length ≤ sc.maxEntries ∧
  sc.order.Nodup ∧
  (sc.entries.map Prod.fst).Nodup ∧
  (∀ k ∈ sc.order, (assocLookup sc.entries k).isSome = true) ∧
  (∀ p ∈ sc.entries,
    p.1 ∈ sc.order ∧ p.2.query = p.1 ∧ p.2.trigrams = buildTrigrams p.1)

instance invDecidable {ρ : Type} (sc : SearchCacheG ρ) : Decidable (Inv sc) := by
  unfold Inv
  infer_instance

lemma inv_order_iff_keys {ρ : Type} {sc : SearchCacheG ρ} (h : Inv sc)
    (k : String) : k ∈ sc.order ↔ k ∈ sc.entries.map Prod.fst := by
  constructor
  · intro hk
    exact assocLookup_isSome_iff.mp (h.2.2.2.2.1 k hk)
  · intro hk
    obtain ⟨p, hp, hpk⟩ := List.mem_map.mp hk
    exact hpk ▸ (h.2.2.2.2.2 p hp).1

lemma inv_moveToEnd {ρ : Type} {sc : SearchCacheG ρ} {key : String} (h : Inv sc)
    (hkey : (assocLookup sc.entries key).isSome = true) :
    Inv (moveToEndLocked sc key) := by
  obtain ⟨h1, h2, h3, h4, h5, h6⟩ := h
  refine ⟨h1, h2, moveToEnd_order_nodup h3, h4, ?_, ?_⟩
  · intro k hk
    rcases List.mem_append.mp hk with hk | hk
    · exact h5 k ((removeFirst_sublist _ _).subset hk)
    · rw [List.mem_singleton] at hk
      subst hk
      exact hkey
  · intro p hp
    obtain ⟨hp1, hp2, hp3⟩ := h6 p hp
    refine ⟨?_, hp2, hp3⟩
    by_cases hpk : p.1 = key
    · exact List.mem_append_right _ (by simp [hpk])
    · exact List.mem_append_left _
        ((mem_removeFirst_of_nodup h3).mpr ⟨hp1, hpk⟩)

lemma inv_new (m t : Int) : Inv (NewSearchCache m t) := by
  refine ⟨?_, Nat.zero_le _, List.nodup_nil, List.nodup_nil, ?_, ?_⟩
  · show 1 ≤ (if m ≤ 0 then (50 : Int) else m).toNat
    split <;> omega
  · intro k hk
    simp [NewSearchCache] at hk
  · intro p hp
    simp [NewSearchCache] at hp

/-! ### The similarity scan -/

lemma scanFold_some {ρ : Type} (now ttl : Nat) (qt : List Nat)
    (l : List (String × CacheEntryG ρ)) :
    ∀ (acc : ℚ × Option (CacheEntryG ρ)) (e : CacheEntryG ρ),
      (l.foldl (scanStep now ttl qt) acc).2 = some e →
      acc.2 = some e ∨ ∃ k, (k, e) ∈ l ∧ now - e.createdAt < ttl := by
  induction l with
  | nil =>
    intro acc e h
    exact Or.inl h
  | cons p rest ih =>
    intro acc e h
    rw [List.foldl_cons] at h
    rcases ih _ e h with hacc | ⟨k, hk, hlive⟩
    · simp only [scanStep] at hacc
      split at hacc
      · exact Or.inl hacc
      · rename_i hexp
        split at hacc
        · have hpe : p.2 = e := by simpa using hacc
          subst hpe
          exact Or.inr ⟨p.1, by simp, Nat.not_le.mp hexp⟩
        · exact Or.inl hacc
    · exact Or.inr ⟨k, List.mem_cons_of_mem _ hk, hlive⟩

lemma inv_getScan {sc : SearchCache} (h : Inv sc) (now : Nat) (n : String) :
    Inv (getScan sc now n).2.2 := by
  simp only [getScan]
  split
  · rename_i bestEntry heq
    split
    · rcases scanFold_some now sc.ttl (buildTrigrams n) sc.entries (0, none)
        bestEntry heq with hacc | ⟨k, hk, _⟩
      · simp at hacc
      · have hq := (h.2.2.2.2.2 (k, bestEntry) hk).2.1
        apply inv_moveToEnd h
        rw [show ((k, bestEntry) : String × CacheEntry).2.query =
          bestEntry.query from rfl] at hq
        rw [hq]
        exact assocLookup_isSome_iff.mpr
          (List.mem_map.mpr ⟨(k, bestEntry), hk, rfl⟩)
    · exact h
  · exact h

lemma inv_get {sc : SearchCache} (h : Inv sc) (now : Nat) (q : String) :
    Inv (Get sc now q).2.2 := by
  simp only [Get]
  split
  · exact h
  · split
    · rename_i entry heq
      split
      · exact inv_moveToEnd h (by rw [heq]; rfl)
      · exact inv_getScan h now _
    · exact inv_getScan h now _

/-! ### The TTL sweep -/

lemma evictFold_spec {ρ : Type} (now ttl : Nat) (ks : List String) :
    ∀ (E : List (String × CacheEntryG ρ)) (O : List String),
      (E.map Prod.fst).Nodup → ks.Nodup → O.Nodup →
      (∀ k ∈ O, k ∈ E.map Prod.fst) →
      (∀ k ∈ O, k ∉ ks) →
      (∀ k ∈ E.map Prod.fst, k ∈ O ∨ k ∈ ks) →
      List.Sublist (ks.foldl (evictStep now ttl) (E, O)).1 E ∧
      (ks.foldl (evictStep now ttl) (E, O)).2.Nodup ∧
      (∀ k, k ∈ (ks.foldl (evictStep now ttl) (E, O)).2 ↔
        k ∈ ((ks.foldl (evictStep now ttl) (E, O)).1.map Prod.fst)) := by
  induction ks with
  | nil =>
    intro E O hE _ hO hOE _ hEsub
    refine ⟨List.Sublist.refl E, hO, fun k => ⟨fun hk => hOE k hk, fun hk => ?_⟩⟩
    rcases hEsub k hk with h | h
    · exact h
    · simp at h
  | cons k0 rest ih =>
    intro E O hE hks hO hOE hOks hEsub
    rw [List.nodup_cons] at hks
    obtain ⟨hk0rest, hrestnd⟩ := hks
    rw [List.foldl_cons]
    cases hlook : assocLookup E k0 with
    | none =>
      have hk0keys : k0 ∉ E.map Prod.fst := assocLookup_eq_none.mp hlook
      have hstep : evictStep now ttl (E, O) k0 = (E, O) := by
        rw [evictStep, hlook]
      rw [hstep]
      refine ih E O hE hrestnd hO hOE ?_ ?_
      · intro k hk
        exact fun hr => hOks k hk (List.mem_cons_of_mem _ hr)
      · intro k hk
        rcases hEsub k hk with h | h
        · exact Or.inl h
        · rcases List.mem_cons.mp h with rfl | h
          · exact absurd hk hk0keys
          · exact Or.inr h
    | some e =>
      have hk0keys : k0 ∈ E.map Prod.fst := by
        rw [← assocLookup_isSome_iff, hlook]
        rfl
      by_cases hexp : ttl ≤ now - e.createdAt
      · have hstep : evictStep now ttl (E, O) k0 = (assocErase E k0, O) := by
          simp only [evictStep, hlook]
          rw [if_pos hexp]
        rw [hstep]
        have hE' : ((assocErase E k0).map Prod.fst).Nodup := by
          rw [keys_assocErase]
          exact (removeFirst_sublist _ _).nodup hE
        have hmemErase : ∀ k, k ∈ (assocErase E k0).map Prod.fst ↔
            k ∈ E.map Prod.fst ∧ k ≠ k0 := by
          intro k
          rw [keys_assocErase]
          exact mem_removeFirst_of_nodup hE
        obtain ⟨s1, s2, s3⟩ := ih (assocErase E k0) O hE' hrestnd hO
          (fun k hk => (hmemErase k).mpr
            ⟨hOE k hk, fun hkk0 => hOks k hk (hkk0 ▸ List.mem_cons_self _ _)⟩)
          (fun k hk hr => hOks k hk (List.mem_cons_of_mem _ hr))
          (fun k hk => by
            obtain ⟨hkE, hkne⟩ := (hmemErase k).mp hk
            rcases hEsub k hkE with h | h
            · exact Or.inl h
            · rcases List.mem_cons.mp h with rfl | h
              · exact absurd rfl hkne
              · exact Or.inr h)
        exact ⟨s1.trans (assocErase_sublist E k0), s2, s3⟩
      · have hstep : evictStep now ttl (E, O) k0 = (E, O ++ [k0]) := by
          simp only [evictStep, hlook]
          rw [if_neg hexp]
        rw [hstep]
        have hk0O : k0 ∉ O := fun hk0O =>
          hOks k0 hk0O (List.mem_cons_self _ _)
        refine ih E (O ++ [k0]) hE hrestnd ?_ ?_ ?_ ?_
        · rw [(List.perm_append_singleton k0 O).nodup_iff, List.nodup_cons]
          exact ⟨hk0O, hO⟩
        · intro k hk
          rcases List.mem_append.mp hk with hk | hk
          · exact hOE k hk
          · rw [List.mem_singleton] at hk
            exact hk ▸ hk0keys
        · intro k hk
          rcases List.mem_append.mp hk with hk | hk
          · exact fun hr => hOks k hk (List.mem_cons_of_mem _ hr)
          · rw [List.mem_singleton] at hk
            exact hk ▸ hk0rest
        · intro k hk
          rcases hEsub k hk with h | h
          · exact Or.inl (List.mem_append_left _ h)
          · rcases List.mem_cons.mp h with rfl | h
            · exact Or.inl (List.mem_append_right _ (by simp))
            · exact Or.inr h

lemma inv_evictExpired {ρ : Type} {sc : SearchCacheG ρ} (h : Inv sc) (now : Nat) :
    Inv (evictExpiredLocked sc now) := by
  obtain ⟨h1, h2, h3, h4, h5, h6⟩ := h
  obtain ⟨s1, s2, s3⟩ := evictFold_spec now sc.ttl sc.order sc.entries []
    h4 h3 List.nodup_nil (by simp) (by simp)
    (fun k hk => Or.inr (by
      obtain ⟨p, hp, hpk⟩ := List.mem_map.mp hk
      exact hpk ▸ (h6 p hp).1))
  refine ⟨h1, le_trans s1.length_le h2, s2, s1.map Prod.fst |>.nodup h4, ?_, ?_⟩
  · intro k hk
    rw [assocLookup_isSome_iff]
    exact (s3 k).mp hk
  · intro p hp
    obtain ⟨_, hp2, hp3⟩ := h6 p (s1.subset hp)
    exact ⟨(s3 p.1).mpr (List.mem_map.mpr ⟨p, hp, rfl⟩), hp2, hp3⟩

/-! ### The capacity-eviction loop -/

lemma evictLRULoop_spec {ρ : Type} (maxE : Nat) (O : List String) :
    ∀ (E : List (String × CacheEntryG ρ)),
      (E.map Prod.fst).Nodup → O.Nodup →
      (∀ k, k ∈ O ↔ k ∈ E.map Prod.fst) →
      List.Sublist (evictLRULoop maxE E O).1 E ∧
      (evictLRULoop maxE E O).2.Nodup ∧
      (∀ k, k ∈ (evictLRULoop maxE E O).2 ↔
        k ∈ (evictLRULoop maxE E O).1.map Prod.fst) ∧
      (1 ≤ maxE → (evictLRULoop maxE E O).1.length < maxE) := by
  induction O with
  | nil =>
    intro E hE hO hiff
    have hEmpty : E = [] := by
      cases E with
      | nil => rfl
      | cons p r =>
        have := (hiff p.1).mpr (by simp)
        simp at this
    subst hEmpty
    exact ⟨List.Sublist.refl _, List.nodup_nil, by simp [evictLRULoop],
      fun h1 => by simp [evictLRULoop]; omega⟩
  | cons oldest rest ih =>
    intro E hE hO hiff
    rw [List.nodup_cons] at hO
    obtain ⟨hor, hrest⟩ := hO
    simp only [evictLRULoop]
    split
    · rename_i hcap
      have hE' : ((assocErase E oldest).map Prod.fst).Nodup := by
        rw [keys_assocErase]
        exact (removeFirst_sublist _ _).nodup hE
      have hiff' : ∀ k, k ∈ rest ↔ k ∈ (assocErase E oldest).map Prod.fst := by
        intro k
        rw [keys_assocErase, mem_removeFirst_of_nodup hE]
        constructor
        · intro hk
          exact ⟨(hiff k).mp (List.mem_cons_of_mem _ hk),
            fun hkk => hor (hkk ▸ hk)⟩
        · rintro ⟨hk, hne⟩
          rcases List.mem_cons.mp ((hiff k).mpr hk) with rfl | h
          · exact absurd rfl hne
          · exact h
      obtain ⟨s1, s2, s3, s4⟩ := ih (assocErase E oldest) hE' hrest hiff'
      exact ⟨s1.trans (assocErase_sublist E oldest), s2, s3, s4⟩
    · rename_i hcap
      refine ⟨List.Sublist.refl _, List.nodup_cons.mpr ⟨hor, hrest⟩, hiff,
        fun _ => ?_⟩
      show E.length < maxE
      omega

/-! ### `Put` preserves the invariant -/

lemma inv_assocReplace {ρ : Type} {sc : SearchCacheG ρ} {n : String}
    {e : CacheEntryG ρ} (h : Inv sc)
    (hlook : (assocLookup sc.entries n).isSome = true)
    (hq : e.query = n) (ht : e.trigrams = buildTrigrams n) :
    Inv { sc with entries := assocReplace sc.entries n e } := by
  obtain ⟨h1, h2, h3, h4, h5, h6⟩ := h
  have hkeys := keys_assocReplace sc.entries n e
  refine ⟨h1, ?_, h3, ?_, ?_, ?_⟩
  · show (assocReplace sc.entries n e).length ≤ sc.maxEntries
    rw [length_assocReplace]
    exact h2
  · show ((assocReplace sc.entries n e).map Prod.fst).Nodup
    rw [hkeys]
    exact h4
  · intro k hk
    rw [assocLookup_isSome_iff, hkeys, ← assocLookup_isSome_iff]
    exact h5 k hk
  · intro p hp
    rcases mem_assocReplace hp with hmem | rfl
    · obtain ⟨hp1, hp2, hp3⟩ := h6 p hmem
      exact ⟨hp1, hp2, hp3⟩
    · refine ⟨?_, hq, ht⟩
      show n ∈ sc.order
      rw [assocLookup_isSome_iff] at hlook
      obtain ⟨p', hp', hpk'⟩ := List.mem_map.mp hlook
      exact hpk' ▸ (h6 p' hp').1

lemma inv_putNormalized {ρ : Type} {sc : SearchCacheG ρ} {n : String}
    {e : CacheEntryG ρ} (h : Inv sc) (hq : e.query = n)
    (ht : e.trigrams = buildTrigrams n) : Inv (putNormalized sc n e) := by
  rw [putNormalized]
  cases hlook : assocLookup sc.entries n with
  | some w =>
    exact inv_moveToEnd (inv_assocReplace h (by rw [hlook]; rfl) hq ht)
      (by
        rw [assocLookup_isSome_iff, keys_assocReplace,
          ← assocLookup_isSome_iff, hlook]
        rfl)
  | none =>
    obtain ⟨h1, h2, h3, h4, h5, h6⟩ := h
    obtain ⟨s1, s2, s3, s4⟩ := evictLRULoop_spec sc.maxEntries sc.order
      sc.entries h4 h3 (inv_order_iff_keys ⟨h1, h2, h3, h4, h5, h6⟩)
    have hnkeys : n ∉ sc.entries.map Prod.fst := assocLookup_eq_none.mp hlook
    have hnkeys1 : n ∉ (evictLRULoop sc.maxEntries sc.entries sc.order).1.map
        Prod.fst := fun hn => hnkeys ((s1.map Prod.fst).subset hn)
    have hn2 : n ∉ (evictLRULoop sc.maxEntries sc.entries sc.order).2 :=
      fun hn => hnkeys1 ((s3 n).mp hn)
    refine ⟨h1, ?_, ?_, ?_, ?_, ?_⟩
    · show ((evictLRULoop sc.maxEntries sc.entries sc.order).1 ++ [(n, e)]).length ≤
        sc.maxEntries
      rw [List.length_append]
      have := s4 h1
      simp only [List.length_singleton]
      omega
    · show ((evictLRULoop sc.maxEntries sc.entries sc.order).2 ++ [n]).Nodup
      rw [(List.perm_append_singleton _ _).nodup_iff, List.nodup_cons]
      exact ⟨hn2, s2⟩
    · show (((evictLRULoop sc.maxEntries sc.entries sc.order).1 ++
        [(n, e)]).map Prod.fst).Nodup
      rw [List.map_append, List.map_singleton]
      rw [(List.perm_append_singleton _ _).nodup_iff, List.nodup_cons]
      exact ⟨hnkeys1, (s1.map Prod.fst).nodup h4⟩
    · intro k hk
      rcases List.mem_append.mp hk with hk | hk
      · have hkk := (s3 k).mp hk
        rw [← assocLookup_isSome_iff] at hkk
        obtain ⟨v, hv⟩ := Option.isSome_iff_exists.mp hkk
        rw [assocLookup_append_of_some hv]
        rfl
      · rw [List.mem_singleton] at hk
        subst hk
        rw [assocLookup_append_of_none _ (assocLookup_eq_none.mpr hnkeys1)]
        rw [assocLookup, if_pos rfl]
        rfl
    · intro p hp
      rcases List.mem_append.mp hp with hp | hp
      · obtain ⟨_, hp2, hp3⟩ := h6 p (s1.subset hp)
        refine ⟨?_, hp2, hp3⟩
        exact List.mem_append_left _
          ((s3 p.1).mpr (List.mem_map.mpr ⟨p, hp, rfl⟩))
      · rw [List.mem_singleton] at hp
        subst hp
        exact ⟨List.mem_append_right _ (by simp), hq, ht⟩

lemma inv_put {sc : SearchCache} (h : Inv sc) (now : Nat) (q : String)
    (rs : List SearchResult) : Inv (Put sc now q rs) := by
  simp only [Put]
  split
  · exact h
  · exact inv_putNormalized (inv_evictExpired h now) rfl rfl

/-! ### Claim theorems: cache invariants and the exact-hit round trip -/

/-- The cache states constructible through the public interface:
`NewSearchCache` followed by any sequence of `Get`/`Put` (and `Len`, which
does not change state). -/
inductive CacheReachable : SearchCache → Prop
  | new (maxEntries ttl : Int) : CacheReachable (NewSearchCache maxEntries ttl)
  | put (sc : SearchCache) (now : Nat) (query : String)
      (results : List SearchResult) :
      CacheReachable sc → CacheReachable (Put sc now query results)
  | get (sc : SearchCache) (now : Nat) (query : String) :
      CacheReachable sc → CacheReachable (Get sc now query).2.2

lemma inv_of_reachable {sc : SearchCache} (h : CacheReachable sc) : Inv sc := by
  induction h with
  | new m t => exact inv_new m t
  | put sc now q rs _ ih => exact inv_put ih now q rs
  | get sc now q _ ih => exact inv_get ih now q

/-- C2: every cache operation preserves the invariant: in every cache state
reachable from `NewSearchCache` through `Get`/`Put` (and `Len`), the entry
count is at most the configured maximum, and the recency order holds
exactly the keys of the entry mapping, each exactly once. -/
theorem cache_invariants (sc : SearchCache) (h : CacheReachable sc) :
    Len sc ≤ sc.maxEntries ∧ sc.order.Nodup ∧
      (∀ k, k ∈ sc.order ↔ k ∈ sc.entries.map Prod.fst) := by
  have hInv := inv_of_reachable h
  exact ⟨hInv.2.1, hInv.2.2.1, fun k => inv_order_iff_keys hInv k⟩

theorem cache_invariants_witness :
    Len (Put (NewSearchCache 3 1000) 0 "query-a" [witResultA]) ≤
      (Put (NewSearchCache 3 1000) 0 "query-a" [witResultA]).maxEntries ∧
    (Put (NewSearchCache 3 1000) 0 "query-a" [witResultA]).order.Nodup ∧
    (∀ k, k ∈ (Put (NewSearchCache 3 1000) 0 "query-a" [witResultA]).order ↔
      k ∈ (Put (NewSearchCache 3 1000) 0 "query-a"
        [witResultA]).entries.map Prod.fst) :=
  cache_invariants _
    (CacheReachable.put _ 0 "query-a" [witResultA] (CacheReachable.new 3 1000))

lemma putNormalized_ttl {ρ : Type} (sc : SearchCacheG ρ) (n : String)
    (e : CacheEntryG ρ) : (putNormalized sc n e).ttl = sc.ttl := by
  rw [putNormalized]
  split <;> rfl

lemma put_ttl (sc : SearchCache) (now : Nat) (q : String)
    (rs : List SearchResult) : (Put sc now q rs).ttl = sc.ttl := by
  simp only [Put]
  split
  · rfl
  · rw [putNormalized_ttl]
    rfl

lemma assocLookup_none_of_sublist {α : Type} {l' l : List (String × α)}
    {k : String} (hs : List.Sublist l' l) (h : assocLookup l k = none) :
    assocLookup l' k = none := by
  rw [assocLookup_eq_none] at h ⊢
  exact fun hk => h ((hs.map Prod.fst).subset hk)

lemma evictLRULoop_sublist {ρ : Type} (maxE : Nat) (O : List String) :
    ∀ E : List (String × CacheEntryG ρ),
      List.Sublist (evictLRULoop maxE E O).1 E := by
  induction O with
  | nil => intro E; exact List.Sublist.refl _
  | cons oldest rest ih =>
    intro E
    simp only [evictLRULoop]
    split
    · exact (ih (assocErase E oldest)).trans (assocErase_sublist E oldest)
    · exact List.Sublist.refl _

/-- After `Put`, the normalized key maps to the freshly built entry. -/
lemma put_lookup_self (sc : SearchCache) (now : Nat) (q : String)
    (rs : List SearchResult) (hq : normalizeQuery q ≠ "") :
    assocLookup (Put sc now q rs).entries (normalizeQuery q) =
      some { query := normalizeQuery q
             trigrams := buildTrigrams (normalizeQuery q)
             results := copyResults rs
             createdAt := now } := by
  simp only [Put, if_neg hq]
  rw [putNormalized]
  cases hlook : assocLookup (evictExpiredLocked sc now).entries
      (normalizeQuery q) with
  | some w =>
    exact assocLookup_assocReplace_self _ (by rw [hlook]; rfl)
  | none =>
    have hnone : assocLookup
        (evictLRULoop (evictExpiredLocked sc now).maxEntries
          (evictExpiredLocked sc now).entries
          (evictExpiredLocked sc now).order).1 (normalizeQuery q) = none :=
      assocLookup_none_of_sublist (evictLRULoop_sublist _ _ _) hlook
    rw [assocLookup_append_of_none _ hnone, assocLookup, if_pos rfl]

/-- C3: for queries with equal, non-empty normalizations (lower-casing plus
whitespace trimming), `Put(q2, R)` followed by `Get(q1)` before the TTL
elapses is a hit returning exactly `R`. -/
theorem put_get_normalized_roundtrip (sc : SearchCache) (now now2 : Nat)
    (q1 q2 : String) (R : List SearchResult)
    (hnorm : normalizeQuery q1 = normalizeQuery q2)
    (hne : normalizeQuery q2 ≠ "")
    (httl : now2 - now < sc.ttl) :
    (Get (Put sc now q2 R) now2 q1).1 = R ∧
    (Get (Put sc now q2 R) now2 q1).2.1 = true := by
  have hlook := put_lookup_self sc now q2 R hne
  have httl2 : now2 - now < (Put sc now q2 R).ttl := by
    rw [put_ttl]
    exact httl
  have hget : Get (Put sc now q2 R) now2 q1 =
      (copyResults (copyResults R), true,
        moveToEndLocked (Put sc now q2 R) (normalizeQuery q2)) := by
    simp only [Get, hnorm, if_neg hne, hlook]
    rw [if_pos httl2]
  rw [hget]
  exact ⟨rfl, rfl⟩

lemma getScan_hit_live {sc : SearchCache} {now : Nat} {n : String}
    {rs : List SearchResult} {sc2 : SearchCache}
    (h : getScan sc now n = (rs, true, sc2)) :
    ∃ p ∈ sc.entries, now - p.2.createdAt < sc.ttl ∧
      rs = copyResults p.2.results := by
  simp only [getScan] at h
  split at h
  · rename_i bestEntry heq
    split at h
    · rcases scanFold_some now sc.ttl (buildTrigrams n) sc.entries (0, none)
        bestEntry heq with hacc | ⟨k, hk, hlive⟩
      · simp at hacc
      · rw [Prod.mk.injEq, Prod.mk.injEq] at h
        exact ⟨(k, bestEntry), hk, hlive, h.1.symm⟩
    · simp at h
  · simp at h

/-- C5: `Get` never returns a hit from an expired entry: every hit's results
come from a live entry (strictly younger than the TTL) of the pre-call
cache — so an exact match on an expired entry is not a hit and expired
entries are skipped by the similarity scan; in particular, `Put` followed
by `Get` on the same query after the TTL has elapsed (with no other live
entries present) is a miss. -/
theorem get_never_hits_expired :
    (∀ (sc : SearchCache) (now : Nat) (q : String) (rs : List SearchResult)
        (sc2 : SearchCache), Get sc now q = (rs, true, sc2) →
        ∃ p ∈ sc.entries, now - p.2.createdAt < sc.ttl ∧
          rs = copyResults p.2.results) ∧
    (Get (Put (NewSearchCache 10 50) 0 "github integration" [witResultA]) 50
      "github integration").2.1 = false := by
  constructor
  · intro sc now q rs sc2 h
    simp only [Get] at h
    split at h
    · simp at h
    · split at h
      · rename_i entry heq
        split at h
        · rename_i hlive
          rw [Prod.mk.injEq, Prod.mk.injEq] at h
          exact ⟨(normalizeQuery q, entry), assocLookup_some_mem heq, hlive,
            h.1.symm⟩
        · exact getScan_hit_live h
      · exact getScan_hit_live h
  · decide

theorem get_never_hits_expired_witness :
    ∃ p ∈ (Put (NewSearchCache 10 100) 0 "github integration"
        [witResultA]).entries,
      10 - p.2.createdAt < (Put (NewSearchCache 10 100) 0 "github integration"
        [witResultA]).ttl ∧
      [witResultA] = copyResults p.2.results :=
  get_never_hits_expired.1
    (Put (NewSearchCache 10 100) 0 "github integration" [witResultA]) 10
    "github integration" [witResultA]
    (Get (Put (NewSearchCache 10 100) 0 "github integration" [witResultA]) 10
      "github integration").2.2
    (by decide)

theorem put_get_normalized_roundtrip_witness :
    (Get (Put (NewSearchCache 10 100) 0 "GitHub Integration" [witResultA]) 10
      "  github integration ").1 = [witResultA] ∧
    (Get (Put (NewSearchCache 10 100) 0 "GitHub Integration" [witResultA]) 10
      "  github integration ").2.1 = true :=
  put_get_normalized_roundtrip (NewSearchCache 10 100) 0 10
    "  github integration " "GitHub Integration" [witResultA]
    (by decide) (by decide) (by decide)

/-- Fixture: a capacity-3 cache after inserting A, B, C at time 0. -/
def lruCache3 : SearchCache :=
  Put (Put (Put (NewSearchCache 3 1000) 0 "query-a" [witResultA]) 0
    "query-b" [witResultA]) 0 "query-c" [witResultA]

/-- Fixture: the same cache after a hit on A and an insert of D. -/
def lruCache4 : SearchCache :=
  Put (Get lruCache3 0 "query-a").2.2 0 "query-d" [witResultA]

/-! ### C4: LRU eviction and recency refresh -/

lemma evictFold_all_live {ρ : Type} (now ttl : Nat) (ks : List String) :
    ∀ (E : List (String × CacheEntryG ρ)) (O : List String),
      (∀ p ∈ E, now - p.2.createdAt < ttl) →
      (∀ k ∈ ks, (assocLookup E k).isSome = true) →
      ks.foldl (evictStep now ttl) (E, O) = (E, O ++ ks) := by
  induction ks with
  | nil => intro E O _ _; simp
  | cons k0 rest ih =>
    intro E O hlive hks
    rw [List.foldl_cons]
    obtain ⟨e, he⟩ := Option.isSome_iff_exists.mp (hks k0 (by simp))
    have hstep : evictStep now ttl (E, O) k0 = (E, O ++ [k0]) := by
      simp only [evictStep, he]
      rw [if_neg (Nat.not_le.mpr (hlive (k0, e) (assocLookup_some_mem he)))]
    rw [hstep, ih E (O ++ [k0]) hlive (fun k hk => hks k (by simp [hk]))]
    simp

lemma evictExpired_all_live {ρ : Type} {sc : SearchCacheG ρ} {now : Nat}
    (hInv : Inv sc)
    (hlive : ∀ p ∈ sc.entries, now - p.2.createdAt < sc.ttl) :
    evictExpiredLocked sc now = sc := by
  have hfold := evictFold_all_live now sc.ttl sc.order sc.entries [] hlive
    (fun k hk => hInv.2.2.2.2.1 k hk)
  simp only [evictExpiredLocked, hfold, List.nil_append]

lemma evictLRULoop_full {ρ : Type} {maxE : Nat}
    {E : List (String × CacheEntryG ρ)} {k0 : String} {rest : List String}
    (hlen : E.length = maxE) (hmem : k0 ∈ E.map Prod.fst) (_hpos : 1 ≤ maxE) :
    evictLRULoop maxE E (k0 :: rest) = (assocErase E k0, rest) := by
  have hlen2 : (assocErase E k0).length + 1 = E.length :=
    length_assocErase_of_mem hmem
  simp only [evictLRULoop]
  rw [if_pos (by omega)]
  cases rest with
  | nil => rfl
  | cons r rs =>
    simp only [evictLRULoop]
    rw [if_neg (by omega)]

/-- C4: `Put` of a new key at capacity (with every entry live) evicts the
head of the recency order from both structures and appends the new key at
the tail; a `Get` hit moves the hit key to the tail of the recency order.
Hence with capacity 3, after `Put` of A, B, C, a hit `Get(A)`, and `Put`
of D, entry B is evicted while A, C and D remain. -/
theorem put_lru_eviction_and_recency :
    (∀ (sc : SearchCache) (now : Nat) (q : String) (R : List SearchResult)
        (k0 : String) (rest : List String),
        Inv sc → normalizeQuery q ≠ "" →
        assocLookup sc.entries (normalizeQuery q) = none →
        (∀ p ∈ sc.entries, now - p.2.createdAt < sc.ttl) →
        sc.entries.length = sc.maxEntries →
        sc.order = k0 :: rest →
        (Put sc now q R).order = rest ++ [normalizeQuery q] ∧
        assocLookup (Put sc now q R).entries k0 = none ∧
        assocLookup (Put sc now q R).entries (normalizeQuery q) =
          some { query := normalizeQuery q
                 trigrams := buildTrigrams (normalizeQuery q)
                 results := copyResults R
                 createdAt := now }) ∧
    (∀ (sc : SearchCache) (now : Nat) (q : String) (entry : CacheEntry),
        normalizeQuery q ≠ "" →
        assocLookup sc.entries (normalizeQuery q) = some entry →
        now - entry.createdAt < sc.ttl →
        (Get sc now q).2.2.order =
          removeFirst sc.order (normalizeQuery q) ++ [normalizeQuery q]) ∧
    ((Get lruCache3 0 "query-a").2.1 = true ∧
      (Get lruCache4 0 "query-b").2.1 = false ∧
      (Get lruCache4 0 "query-a").2.1 = true ∧
      (Get lruCache4 0 "query-c").2.1 = true ∧
      (Get lruCache4 0 "query-d").2.1 = true) := by
  refine ⟨?_, ?_, by decide⟩
  · intro sc now q R k0 rest hInv hne hmiss hlive hfull horder
    have hk0order : k0 ∈ sc.order := by rw [horder]; simp
    have hk0keys : k0 ∈ sc.entries.map Prod.fst :=
      (inv_order_iff_keys hInv k0).mp hk0order
    have hk0n : k0 ≠ normalizeQuery q := by
      intro hkn
      rw [assocLookup_eq_none] at hmiss
      exact hmiss (hkn ▸ hk0keys)
    have hsweep := evictExpired_all_live hInv hlive
    have hloop : evictLRULoop sc.maxEntries sc.entries sc.order =
        (assocErase sc.entries k0, rest) := by
      rw [horder]
      exact evictLRULoop_full hfull hk0keys hInv.1
    have hk0gone : k0 ∉ (assocErase sc.entries k0).map Prod.fst := by
      rw [keys_assocErase]
      exact not_mem_removeFirst_self hInv.2.2.2.1
    have hngone : assocLookup (assocErase sc.entries k0) (normalizeQuery q) =
        none :=
      assocLookup_none_of_sublist (assocErase_sublist _ _) hmiss
    refine ⟨?_, ?_, ?_⟩
    · simp only [Put, if_neg hne, hsweep, putNormalized, hmiss, hloop]
    · simp only [Put, if_neg hne, hsweep, putNormalized, hmiss, hloop]
      rw [assocLookup_append_of_none _ (assocLookup_eq_none.mpr hk0gone),
        assocLookup, if_neg (Ne.symm hk0n)]
      rfl
    · simp only [Put, if_neg hne, hsweep, putNormalized, hmiss, hloop]
      rw [assocLookup_append_of_none _ hngone, assocLookup, if_pos rfl]
  · intro sc now q entry hne hlook hlive
    simp only [Get, if_neg hne, hlook]
    rw [if_pos hlive]
    rfl

theorem put_lru_eviction_and_recency_witness :
    (Get lruCache3 0 "query-a").2.2.order =
      removeFirst lruCache3.order (normalizeQuery "query-a") ++
        [normalizeQuery "query-a"] :=
  put_lru_eviction_and_recency.2.1 lruCache3 0 "query-a"
    { query := "query-a"
      trigrams := buildTrigrams "query-a"
      results := copyResults [witResultA]
      createdAt := 0 }
    (by decide) (by decide) (by decide)

/-! ### C10: empty trigram sets and the similarity threshold -/

lemma countInterFuel_le : ∀ (fuel : Nat) (a b : List Nat),
    countInterFuel fuel a b ≤ a.length ∧ countInterFuel fuel a b ≤ b.length := by
  intro fuel
  induction fuel with
  | zero => intro a b; simp [countInterFuel]
  | succ f ih =>
    intro a b
    cases a with
    | nil => simp [countInterFuel]
    | cons x xs =>
      cases b with
      | nil => simp [countInterFuel]
      | cons y ys =>
        rw [countInterFuel]
        split
        · obtain ⟨h1, h2⟩ := ih xs ys
          simp only [List.length_cons]
          omega
        · split
          · obtain ⟨h1, h2⟩ := ih xs (y :: ys)
            simp only [List.length_cons] at *
            omega
          · obtain ⟨h1, h2⟩ := ih (x :: xs) ys
            simp only [List.length_cons] at *
            omega

lemma mkRat_le_one {i u : Nat} (h : i ≤ u) : mkRat (i : Int) u ≤ 1 := by
  rcases Nat.eq_zero_or_pos u with rfl | hu
  · have hi : i = 0 := Nat.le_zero.mp h
    subst hi
    rw [Rat.mkRat_zero]
    norm_num
  · rw [Rat.mkRat_eq_divInt, Rat.divInt_eq_div]
    rw [div_le_one (by exact_mod_cast hu)]
    exact_mod_cast h

lemma jaccard_le_one (a b : List Nat) : jaccardSimilarity a b ≤ 1 := by
  simp only [jaccardSimilarity, countInter]
  split
  · exact le_refl 1
  · obtain ⟨h1, h2⟩ := countInterFuel_le (a.length + b.length) a b
    exact mkRat_le_one (by omega)

lemma countInter_nil_left (b : List Nat) : countInter [] b = 0 := by
  rw [countInter]
  cases b with
  | nil => rfl
  | cons y ys => rfl

lemma countInter_nil_right (a : List Nat) : countInter a [] = 0 := by
  rw [countInter]
  cases a with
  | nil => rfl
  | cons x xs => rfl

lemma jaccard_nil_left {b : List Nat} (hb : b ≠ []) :
    jaccardSimilarity [] b = 0 := by
  simp only [jaccardSimilarity]
  rw [if_neg (by simp [List.length_eq_zero, hb]), countInter_nil_left]
  simp [Rat.mkRat_eq_zero, List.length_eq_zero, hb]

lemma jaccard_nil_right {a : List Nat} (ha : a ≠ []) :
    jaccardSimilarity a [] = 0 := by
  simp only [jaccardSimilarity]
  rw [if_neg (by simp [List.length_eq_zero, ha]), countInter_nil_right]
  simp [Rat.mkRat_eq_zero, List.length_eq_zero, ha]

lemma length_charCodes (s : String) : (s.data.map Char.toNat).length = s.length := by
  rw [List.length_map]
  rfl

lemma buildTrigrams_short {s : String} (h : s.length < 3) :
    buildTrigrams s = [] := by
  simp only [buildTrigrams, length_charCodes]
  rw [if_pos h]

lemma insertAsc_ne_nil (x : Nat) (l : List Nat) : insertAsc x l ≠ [] := by
  cases l with
  | nil => simp [insertAsc]
  | cons y ys =>
    rw [insertAsc]
    split <;> simp

lemma sortAsc_ne_nil {l : List Nat} (h : l ≠ []) : sortAsc l ≠ [] := by
  cases l with
  | nil => exact absurd rfl h
  | cons x xs =>
    show insertAsc x (sortAsc xs) ≠ []
    exact insertAsc_ne_nil x _

lemma dedupAdjacent_ne_nil {l : List Nat} (h : l ≠ []) :
    dedupAdjacent l ≠ [] := by
  induction l with
  | nil => exact absurd rfl h
  | cons x xs ih =>
    cases xs with
    | nil => simp [dedupAdjacent]
    | cons y ys =>
      rw [dedupAdjacent]
      split
      · exact ih (by simp)
      · simp

lemma triWindows_ne_nil {cs : List Nat} (h : 3 ≤ cs.length) :
    triWindows cs ≠ [] := by
  cases cs with
  | nil => simp at h
  | cons a cs1 =>
    cases cs1 with
    | nil => simp at h
    | cons b cs2 =>
      cases cs2 with
      | nil => simp at h
      | cons c rest => simp [triWindows]

lemma buildTrigrams_ne_nil {s : String} (h : 3 ≤ s.length) :
    buildTrigrams s ≠ [] := by
  simp only [buildTrigrams, length_charCodes]
  rw [if_neg (by omega)]
  exact dedupAdjacent_ne_nil (sortAsc_ne_nil
    (triWindows_ne_nil (by rw [length_charCodes]; exact h)))

lemma scanFold_isSome_stays {ρ : Type} (now ttl : Nat) (qt : List Nat)
    (l : List (String × CacheEntryG ρ)) :
    ∀ acc : ℚ × Option (CacheEntryG ρ), acc.2.isSome = true →
      ((l.foldl (scanStep now ttl qt) acc).2).isSome = true := by
  induction l with
  | nil => intro acc h; exact h
  | cons p rest ih =>
    intro acc h
    rw [List.foldl_cons]
    apply ih
    simp only [scanStep]
    split
    · exact h
    · split
      · rfl
      · exact h

lemma scanFold_none_eq {ρ : Type} (now ttl : Nat) (qt : List Nat)
    (l : List (String × CacheEntryG ρ)) :
    ∀ acc : ℚ × Option (CacheEntryG ρ),
      (l.foldl (scanStep now ttl qt) acc).2 = none →
      l.foldl (scanStep now ttl qt) acc = acc := by
  induction l with
  | nil => intro acc _; rfl
  | cons p rest ih =>
    intro acc h
    rw [List.foldl_cons] at h ⊢
    by_cases hexp : ttl ≤ now - p.2.createdAt
    · have hstep : scanStep now ttl qt acc p = acc := by
        simp only [scanStep]
        rw [if_pos hexp]
      rw [hstep] at h ⊢
      exact ih acc h
    · by_cases hup : acc.1 < jaccardSimilarity qt p.2.trigrams
      · have hstep : scanStep now ttl qt acc p =
            (jaccardSimilarity qt p.2.trigrams, some p.2) := by
          simp only [scanStep]
          rw [if_neg hexp, if_pos hup]
        rw [hstep] at h
        have hsome := scanFold_isSome_stays now ttl qt rest
          (jaccardSimilarity qt p.2.trigrams, some p.2) rfl
        rw [h] at hsome
        simp at hsome
      · have hstep : scanStep now ttl qt acc p = acc := by
          simp only [scanStep]
          rw [if_neg hexp, if_neg hup]
        rw [hstep] at h ⊢
        exact ih acc h

lemma scanFold_fst_mono {ρ : Type} (now ttl : Nat) (qt : List Nat)
    (l : List (String × CacheEntryG ρ)) :
    ∀ acc, acc.1 ≤ (l.foldl (scanStep now ttl qt) acc).1 := by
  induction l with
  | nil => intro acc; exact le_refl _
  | cons p rest ih =>
    intro acc
    rw [List.foldl_cons]
    refine le_trans ?_ (ih (scanStep now ttl qt acc p))
    simp only [scanStep]
    split
    · exact le_refl _
    · split
      · rename_i hup
        exact le_of_lt hup
      · exact le_refl _

lemma scanFold_fst_le_one {ρ : Type} (now ttl : Nat) (qt : List Nat)
    (l : List (String × CacheEntryG ρ)) :
    ∀ acc, acc.1 ≤ 1 → (l.foldl (scanStep now ttl qt) acc).1 ≤ 1 := by
  induction l with
  | nil => intro acc h; exact h
  | cons p rest ih =>
    intro acc h
    rw [List.foldl_cons]
    apply ih
    simp only [scanStep]
    split
    · exact h
    · split
      · exact jaccard_le_one qt p.2.trigrams
      · exact h

lemma scanFold_fst_ge {ρ : Type} (now ttl : Nat) (qt : List Nat)
    (l : List (String × CacheEntryG ρ)) :
    ∀ acc (p : String × CacheEntryG ρ), p ∈ l →
      ¬(ttl ≤ now - p.2.createdAt) →
      jaccardSimilarity qt p.2.trigrams ≤
        (l.foldl (scanStep now ttl qt) acc).1 := by
  induction l with
  | nil => intro acc p hp; simp at hp
  | cons q0 rest ih =>
    intro acc p hp hlive
    rw [List.foldl_cons]
    rcases List.mem_cons.mp hp with rfl | hp
    · refine le_trans ?_ (scanFold_fst_mono now ttl qt rest _)
      simp only [scanStep]
      rw [if_neg hlive]
      split
      · exact le_refl _
      · rename_i hup
        exact not_lt.mp hup
    · exact ih _ p hp hlive

lemma scanFold_link {ρ : Type} (now ttl : Nat) (qt : List Nat)
    (l : List (String × CacheEntryG ρ)) :
    ∀ acc, (∀ ent, acc.2 = some ent →
        acc.1 = jaccardSimilarity qt ent.trigrams) →
      ∀ ent, (l.foldl (scanStep now ttl qt) acc).2 = some ent →
        (l.foldl (scanStep now ttl qt) acc).1 =
          jaccardSimilarity qt ent.trigrams := by
  induction l with
  | nil => intro acc hacc ent h; exact hacc ent h
  | cons p rest ih =>
    intro acc hacc ent h
    rw [List.foldl_cons] at h ⊢
    refine ih _ ?_ ent h
    intro e2 he2
    by_cases hexp : ttl ≤ now - p.2.createdAt
    · have hstep : scanStep now ttl qt acc p = acc := by
        simp only [scanStep]
        rw [if_pos hexp]
      rw [hstep] at he2 ⊢
      exact hacc e2 he2
    · by_cases hup : acc.1 < jaccardSimilarity qt p.2.trigrams
      · have hstep : scanStep now ttl qt acc p =
            (jaccardSimilarity qt p.2.trigrams, some p.2) := by
          simp only [scanStep]
          rw [if_neg hexp, if_pos hup]
        rw [hstep] at he2 ⊢
        have hpe : p.2 = e2 := by simpa using he2
        rw [← hpe]
      · have hstep : scanStep now ttl qt acc p = acc := by
          simp only [scanStep]
          rw [if_neg hexp, if_neg hup]
        rw [hstep] at he2 ⊢
        exact hacc e2 he2

lemma assoc_keys_nodup_unique {α : Type} {l : List (String × α)}
    (h : (l.map Prod.fst).Nodup) {k : String} {a b : α}
    (ha : (k, a) ∈ l) (hb : (k, b) ∈ l) : a = b := by
  induction l with
  | nil => simp at ha
  | cons p rest ih =>
    rw [List.map_cons, List.nodup_cons] at h
    obtain ⟨hp, hrest⟩ := h
    rcases List.mem_cons.mp ha with ha1 | ha2 <;>
      rcases List.mem_cons.mp hb with hb1 | hb2
    · have := ha1.trans hb1.symm
      exact ((Prod.mk.injEq _ _ _ _).mp this).2
    · exfalso
      apply hp
      rw [← ha1]
      exact List.mem_map.mpr ⟨(k, b), hb2, rfl⟩
    · exfalso
      apply hp
      rw [← hb1]
      exact List.mem_map.mpr ⟨(k, a), ha2, rfl⟩
    · exact ih hrest ha2 hb2

/-- C10 (implicit consequence): if the cache holds a live entry whose
normalized key is shorter than 3 characters (hence has an empty trigram
set) and it is the only live short-keyed entry, then `Get` of any query
whose normalized form is non-empty, shorter than 3 characters, and not an
exact key of the cache is a similarity hit returning that entry's results:
two empty trigram sets have Jaccard similarity 1 ≥ 0.7, even when the two
queries share no characters (e.g. `Put("zz", R)` then `Get("ab")`). -/
theorem short_query_empty_trigram_hit (sc : SearchCache) (now : Nat)
    (q k : String) (e : CacheEntry)
    (hInv : Inv sc)
    (hmem : (k, e) ∈ sc.entries)
    (hkshort : k.length < 3)
    (hklive : now - e.createdAt < sc.ttl)
    (huniq : ∀ p ∈ sc.entries, now - p.2.createdAt < sc.ttl →
      p.1.length < 3 → p.1 = k)
    (hqne : normalizeQuery q ≠ "")
    (hqshort : (normalizeQuery q).length < 3)
    (hnokey : assocLookup sc.entries (normalizeQuery q) = none) :
    (Get sc now q).1 = e.results ∧ (Get sc now q).2.1 = true := by
  have hqt : buildTrigrams (normalizeQuery q) = [] := buildTrigrams_short hqshort
  have hek : e.trigrams = buildTrigrams k := (hInv.2.2.2.2.2 (k, e) hmem).2.2
  have hetri : e.trigrams = [] := by rw [hek, buildTrigrams_short hkshort]
  have hsime : jaccardSimilarity [] e.trigrams = 1 := by
    rw [hetri]
    decide
  have hothers : ∀ p ∈ sc.entries, ¬(sc.ttl ≤ now - p.2.createdAt) →
      p.2 = e ∨ jaccardSimilarity [] p.2.trigrams = 0 := by
    intro p hp hlivep
    by_cases hps : p.1.length < 3
    · left
      have hpk : p.1 = k := huniq p hp (Nat.not_le.mp hlivep) hps
      have hpmem : (k, p.2) ∈ sc.entries := by
        rw [← hpk]
        exact hp
      exact assoc_keys_nodup_unique hInv.2.2.2.1 hpmem hmem
    · right
      have hptri : p.2.trigrams = buildTrigrams p.1 := (hInv.2.2.2.2.2 p hp).2.2
      rw [hptri]
      exact jaccard_nil_left (buildTrigrams_ne_nil (by omega))
  have hfold1 : (sc.entries.foldl (scanStep now sc.ttl [])
      ((0 : ℚ), (none : Option CacheEntry))).1 = 1 := by
    apply le_antisymm
    · exact scanFold_fst_le_one now sc.ttl [] sc.entries _ (by norm_num)
    · have := scanFold_fst_ge now sc.ttl [] sc.entries
        ((0 : ℚ), (none : Option CacheEntry)) (k, e) hmem
        (Nat.not_le.mpr hklive)
      rw [show ((k, e) : String × CacheEntry).2 = e from rfl, hsime] at this
      exact this
  have hfold2 : (sc.entries.foldl (scanStep now sc.ttl [])
      ((0 : ℚ), (none : Option CacheEntry))).2 = some e := by
    cases hsnd : (sc.entries.foldl (scanStep now sc.ttl [])
        ((0 : ℚ), (none : Option CacheEntry))).2 with
    | none =>
      have heq := scanFold_none_eq now sc.ttl [] sc.entries _ hsnd
      rw [heq] at hfold1
      norm_num at hfold1
    | some ent =>
      have hlink := scanFold_link now sc.ttl [] sc.entries _
        (by intro ent2 h2; simp at h2) ent hsnd
      rw [hfold1] at hlink
      obtain hacc | ⟨k2, hk2, hlive2⟩ := scanFold_some now sc.ttl []
        sc.entries _ ent hsnd
      · simp at hacc
      · rcases hothers (k2, ent) hk2 (Nat.not_le.mpr hlive2) with heq | hzero
        · exact congrArg some heq
        · rw [show ((k2, ent) : String × CacheEntry).2 = ent from rfl] at hzero
          rw [hzero] at hlink
          norm_num at hlink
  have hbest : scanBest sc.entries now sc.ttl
      (buildTrigrams (normalizeQuery q)) = (1, some e) := by
    rw [hqt]
    exact Prod.ext hfold1 hfold2
  simp only [Get, if_neg hqne, hnokey, getScan, hbest]
  split
  · exact ⟨rfl, rfl⟩
  · rename_i hth
    exact absurd (by decide : similarityThreshold ≤ (1 : ℚ)) (by simpa using hth)

theorem short_query_empty_trigram_hit_witness :
    (Get (Put (NewSearchCache 10 100) 0 "zz" [witResultA]) 0 "ab").1 =
      [witResultA] ∧
    (Get (Put (NewSearchCache 10 100) 0 "zz" [witResultA]) 0 "ab").2.1 =
      true :=
  short_query_empty_trigram_hit
    (Put (NewSearchCache 10 100) 0 "zz" [witResultA]) 0 "ab" "zz"
    { query := "zz", trigrams := buildTrigrams "zz",
      results := copyResults [witResultA], createdAt := 0 }
    (by decide) (by decide) (by decide) (by decide) (by decide) (by decide)
    (by decide) (by decide)

/-! ### C7: trigram construction and the Jaccard formula -/

lemma mem_insertAsc {x z : Nat} {l : List Nat} :
    z ∈ insertAsc x l ↔ z = x ∨ z ∈ l := by
  induction l with
  | nil => simp [insertAsc]
  | cons y ys ih =>
    rw [insertAsc]
    split
    · simp
    · rw [List.mem_cons, ih, List.mem_cons]
      tauto

lemma mem_sortAsc {z : Nat} {l : List Nat} : z ∈ sortAsc l ↔ z ∈ l := by
  induction l with
  | nil => simp [sortAsc]
  | cons x xs ih =>
    show z ∈ insertAsc x (sortAsc xs) ↔ _
    rw [mem_insertAsc, ih, List.mem_cons]

lemma mem_dedupAdjacent {z : Nat} {l : List Nat} :
    z ∈ dedupAdjacent l ↔ z ∈ l := by
  induction l with
  | nil => simp [dedupAdjacent]
  | cons x xs ih =>
    cases xs with
    | nil => simp [dedupAdjacent]
    | cons y ys =>
      rw [dedupAdjacent]
      split
      · rename_i hxy
        rw [ih, hxy]
        constructor
        · intro h
          exact List.mem_cons_of_mem _ h
        · intro h
          rcases List.mem_cons.mp h with rfl | h
          · exact List.mem_cons_self _ _
          · exact h
      · rw [List.mem_cons, ih]
        exact (List.mem_cons).symm

lemma insertAsc_sorted {x : Nat} {l : List Nat}
    (h : List.Sorted (· ≤ ·) l) : List.Sorted (· ≤ ·) (insertAsc x l) := by
  induction l with
  | nil => simp [insertAsc]
  | cons y ys ih =>
    rw [List.sorted_cons] at h
    obtain ⟨hy, hys⟩ := h
    rw [insertAsc]
    split
    · rename_i hxy
      rw [List.sorted_cons]
      refine ⟨?_, List.sorted_cons.mpr ⟨hy, hys⟩⟩
      intro b hb
      rcases List.mem_cons.mp hb with rfl | hb
      · exact hxy
      · exact le_trans hxy (hy b hb)
    · rename_i hxy
      rw [List.sorted_cons]
      refine ⟨?_, ih hys⟩
      intro b hb
      rcases mem_insertAsc.mp hb with rfl | hb
      · exact le_of_lt (Nat.not_le.mp hxy)
      · exact hy b hb

lemma sortAsc_sorted (l : List Nat) : List.Sorted (· ≤ ·) (sortAsc l) := by
  induction l with
  | nil => simp [sortAsc]
  | cons x xs ih =>
    show List.Sorted (· ≤ ·) (insertAsc x (sortAsc xs))
    exact insertAsc_sorted ih

lemma dedupAdjacent_sorted {l : List Nat} (h : List.Sorted (· ≤ ·) l) :
    List.Sorted (· < ·) (dedupAdjacent l) := by
  induction l with
  | nil => simp [dedupAdjacent]
  | cons x xs ih =>
    cases xs with
    | nil => simp [dedupAdjacent]
    | cons y ys =>
      rw [List.sorted_cons] at h
      obtain ⟨hx, hys⟩ := h
      rw [dedupAdjacent]
      split
      · exact ih hys
      · rename_i hxy
        rw [List.sorted_cons]
        refine ⟨?_, ih hys⟩
        intro b hb
        have hb2 := mem_dedupAdjacent.mp hb
        have hxb : x ≤ b := hx b hb2
        rcases List.mem_cons.mp hb2 with rfl | hbys
        · exact lt_of_le_of_ne hxb (fun hxb2 => hxy hxb2)
        · rw [List.sorted_cons] at hys
          have hyb : y ≤ b := hys.1 b hbys
          have hxy2 : x ≤ y := hx y (by simp)
          exact lt_of_lt_of_le (lt_of_le_of_ne hxy2 hxy) hyb

lemma buildTrigrams_sorted (s : String) :
    List.Sorted (· < ·) (buildTrigrams s) := by
  rw [buildTrigrams]
  split
  · simp
  · exact dedupAdjacent_sorted (sortAsc_sorted _)

lemma mem_buildTrigrams {s : String} {t : Nat} :
    t ∈ buildTrigrams s ↔ t ∈ triWindows (s.data.map Char.toNat) := by
  rw [buildTrigrams]
  split
  · rename_i hshort
    constructor
    · intro h; simp at h
    · intro h
      exfalso
      revert h
      generalize s.data.map Char.toNat = cs at hshort
      match cs, hshort with
      | [], _ => simp [triWindows]
      | [a], _ => simp [triWindows]
      | [a, b], _ => simp [triWindows]
  · rw [mem_dedupAdjacent, mem_sortAsc]

lemma countInterFuel_symm : ∀ (fuel : Nat) (a b : List Nat),
    countInterFuel fuel a b = countInterFuel fuel b a := by
  intro fuel
  induction fuel with
  | zero => intro a b; rfl
  | succ f ih =>
    intro a b
    cases a with
    | nil => cases b with | nil => rfl | cons y ys => rfl
    | cons x xs =>
      cases b with
      | nil => rfl
      | cons y ys =>
        rw [countInterFuel, countInterFuel]
        by_cases hxy : x = y
        · subst hxy
          rw [if_pos rfl, if_pos rfl, ih]
        · rw [if_neg hxy, if_neg (Ne.symm hxy)]
          by_cases hlt : x < y
          · rw [if_pos hlt, if_neg (by omega)]
            exact ih xs (y :: ys)
          · rw [if_neg hlt, if_pos (by omega)]
            exact ih (x :: xs) ys

lemma countInterFuel_filter : ∀ (fuel : Nat) (a b : List Nat),
    a.length + b.length ≤ fuel →
    List.Sorted (· < ·) a → List.Sorted (· < ·) b →
    countInterFuel fuel a b =
      (a.filter (fun x => decide (x ∈ b))).length := by
  intro fuel
  induction fuel with
  | zero =>
    intro a b hf _ _
    have ha : a = [] := List.length_eq_zero.mp (by omega)
    subst ha
    simp [countInterFuel]
  | succ f ih =>
    intro a b hf ha hb
    cases a with
    | nil => simp [countInterFuel]
    | cons x xs =>
      cases b with
      | nil =>
        simp [countInterFuel]
      | cons y ys =>
        rw [List.sorted_cons] at ha hb
        obtain ⟨hax, haxs⟩ := ha
        obtain ⟨hby, hbys⟩ := hb
        simp only [List.length_cons] at hf
        rw [countInterFuel]
        split
        · rename_i hxy
          subst hxy
          rw [List.filter_cons, if_pos (by simp)]
          have hfeq : xs.filter (fun z => decide (z ∈ x :: ys)) =
              xs.filter (fun z => decide (z ∈ ys)) := by
            apply List.filter_congr
            intro z hz
            have hxz : z ≠ x := fun hzx => by
              have := hax z hz
              omega
            simp [List.mem_cons, hxz]
          rw [List.length_cons, hfeq, ih xs ys (by omega) haxs hbys]
        · split
          · rename_i hne hlt
            have hxnotin : x ∉ y :: ys := by
              intro hx
              rcases List.mem_cons.mp hx with rfl | hx2
              · exact hne rfl
              · exact absurd (hby x hx2) (by omega)
            rw [List.filter_cons, if_neg (by simpa using hxnotin)]
            exact ih xs (y :: ys) (by simp; omega) haxs
              (List.sorted_cons.mpr ⟨hby, hbys⟩)
          · rename_i hne hge
            have hylt : y < x := by
              rcases Nat.lt_trichotomy x y with h | h | h
              · exact absurd h hge
              · exact absurd h hne
              · exact h
            have hfeq : (x :: xs).filter (fun z => decide (z ∈ y :: ys)) =
                (x :: xs).filter (fun z => decide (z ∈ ys)) := by
              apply List.filter_congr
              intro z hz
              have hyz : y < z := by
                rcases List.mem_cons.mp hz with rfl | hz2
                · exact hylt
                · exact lt_trans hylt (hax z hz2)
              have hzy : z ≠ y := fun hzy2 => by omega
              simp [List.mem_cons, hzy]
            rw [hfeq]
            exact ih (x :: xs) ys (by simp; omega)
              (List.sorted_cons.mpr ⟨hax, haxs⟩) hbys

lemma countInter_filter {a b : List Nat} (ha : List.Sorted (· < ·) a)
    (hb : List.Sorted (· < ·) b) :
    countInter a b = (a.filter (fun x => decide (x ∈ b))).length :=
  countInterFuel_filter (a.length + b.length) a b (le_refl _) ha hb

lemma filter_length_split (b a : List Nat) :
    (b.filter (fun x => decide (x ∈ a))).length +
      (b.filter (fun x => decide (x ∉ a))).length = b.length := by
  induction b with
  | nil => rfl
  | cons y ys ih =>
    by_cases hy : y ∈ a
    · simp only [List.filter_cons]
      rw [if_pos (by simp [hy]), if_neg (by simp [hy])]
      simp only [List.length_cons]
      omega
    · simp only [List.filter_cons]
      rw [if_neg (by simp [hy]), if_pos (by simp [hy])]
      simp only [List.length_cons]
      omega

lemma mkRat_eq_div_nat (i u : Nat) : mkRat (i : Int) u = (i : ℚ) / (u : ℚ) := by
  rw [Rat.mkRat_eq_divInt, Rat.divInt_eq_div]
  push_cast
  rfl

/-- C7: `buildTrigrams` of a normalized string shorter than 3 characters is
empty; otherwise it is the ascending-sorted, deduplicated set of the
32-bit packed hashes of all overlapping 3-character windows —
`buildTrigrams "hello"` is exactly the hashes of hel, ell, llo (in
ascending order). `jaccardSimilarity` of two sorted trigram sets equals
`|A ∩ B| / |A ∪ B|`, with `jaccard(∅, ∅) = 1` and `jaccard` of an empty
set with a non-empty set equal to 0. -/
theorem buildTrigrams_jaccard_spec :
    (∀ s : String, s.length < 3 → buildTrigrams s = []) ∧
    (∀ s : String, List.Sorted (· < ·) (buildTrigrams s) ∧
      ∀ t, t ∈ buildTrigrams s ↔ t ∈ triWindows (s.data.map Char.toNat)) ∧
    (buildTrigrams "hello" =
      [packTri 101 108 108, packTri 104 101 108, packTri 108 108 111]) ∧
    (jaccardSimilarity [] [] = 1) ∧
    (∀ b : List Nat, b ≠ [] →
      jaccardSimilarity [] b = 0 ∧ jaccardSimilarity b [] = 0) ∧
    (∀ a b : List Nat, List.Sorted (· < ·) a → List.Sorted (· < ·) b →
      ¬(a = [] ∧ b = []) →
      jaccardSimilarity a b =
        ((a.filter (fun x => decide (x ∈ b))).length : ℚ) /
          ((a.length +
            (b.filter (fun x => decide (x ∉ a))).length : Nat) : ℚ)) := by
  refine ⟨fun s => buildTrigrams_short, ?_, by decide, by decide, ?_, ?_⟩
  · intro s
    exact ⟨buildTrigrams_sorted s, fun t => mem_buildTrigrams⟩
  · intro b hb
    exact ⟨jaccard_nil_left hb, jaccard_nil_right hb⟩
  · intro a b ha hb hne
    have hsym : countInter a b = (b.filter (fun x => decide (x ∈ a))).length := by
      rw [countInter, countInterFuel_symm, Nat.add_comm]
      exact countInterFuel_filter (b.length + a.length) b a (le_refl _) hb ha
    have hsplit := filter_length_split b a
    have hden : a.length + b.length - countInter a b =
        a.length + (b.filter (fun x => decide (x ∉ a))).length := by
      omega
    simp only [jaccardSimilarity]
    rw [if_neg (by
      rintro ⟨ha0, hb0⟩
      exact hne ⟨List.length_eq_zero.mp ha0, List.length_eq_zero.mp hb0⟩)]
    rw [hden, countInter_filter ha hb]
    exact mkRat_eq_div_nat _ _

theorem buildTrigrams_jaccard_spec_witness :
    buildTrigrams "ab" = [] ∧
    jaccardSimilarity [1, 2, 3] [2, 3, 4] =
      ((([1, 2, 3] : List Nat).filter
        (fun x => decide (x ∈ ([2, 3, 4] : List Nat)))).length : ℚ) /
        (((([1, 2, 3] : List Nat).length +
          (([2, 3, 4] : List Nat).filter
            (fun x => decide (x ∉ ([1, 2, 3] : List Nat)))).length) : Nat) : ℚ) :=
  ⟨buildTrigrams_jaccard_spec.1 "ab" (by decide),
    buildTrigrams_jaccard_spec.2.2.2.2.2 [1, 2, 3] [2, 3, 4]
      (by decide) (by decide) (by decide)⟩

/-! ### C8: copy isolation in the heap model -/

lemma heapRead_write_ne {h : Heap} {w r : Nat} {v : List SearchResult}
    (hne : r ≠ w) : heapRead (heapWrite h w v) r = heapRead h r := by
  rw [heapRead, heapWrite, heapRead, List.getD_eq_getElem?_getD,
    List.getD_eq_getElem?_getD, List.getElem?_set_ne (Ne.symm hne)]

lemma heapRead_append_self (l : Heap) (v : List SearchResult) :
    heapRead (l ++ [v]) l.length = v := by
  rw [heapRead, List.getD_eq_getElem?_getD,
    List.getElem?_append_right (le_refl _)]
  simp

lemma evictFold_fst_sublist {ρ : Type} (now ttl : Nat) (ks : List String) :
    ∀ st : List (String × CacheEntryG ρ) × List String,
      List.Sublist (ks.foldl (evictStep now ttl) st).1 st.1 := by
  induction ks with
  | nil => intro st; exact List.Sublist.refl _
  | cons k0 rest ih =>
    intro st
    rw [List.foldl_cons]
    refine (ih (evictStep now ttl st k0)).trans ?_
    rw [evictStep]
    split
    · exact List.Sublist.refl _
    · split
      · exact assocErase_sublist _ _
      · exact List.Sublist.refl _

lemma cacheRefs_evictExpired_subset {sc : SearchCacheH} {now : Nat} {r : Nat}
    (hr : r ∈ cacheRefs (evictExpiredLocked sc now)) : r ∈ cacheRefs sc := by
  rw [cacheRefs] at hr ⊢
  exact ((evictFold_fst_sublist now sc.ttl sc.order
    (sc.entries, [])).map _).subset hr

lemma cacheRefs_putNormalized {sc : SearchCacheH} {n : String}
    {e : CacheEntryG Nat} {r : Nat}
    (hr : r ∈ cacheRefs (putNormalized sc n e)) :
    r ∈ cacheRefs sc ∨ r = e.results := by
  rw [cacheRefs] at hr
  rw [putNormalized] at hr
  split at hr
  · obtain ⟨p, hp, hpr⟩ := List.mem_map.mp hr
    rcases mem_assocReplace hp with hmem | rfl
    · exact Or.inl (List.mem_map.mpr ⟨p, hmem, hpr⟩)
    · exact Or.inr hpr.symm
  · obtain ⟨p, hp, hpr⟩ := List.mem_map.mp hr
    rcases List.mem_append.mp hp with hp1 | hp2
    · exact Or.inl (List.mem_map.mpr
        ⟨p, (evictLRULoop_sublist _ _ _).subset hp1, hpr⟩)
    · rw [List.mem_singleton] at hp2
      subst hp2
      exact Or.inr hpr.symm

lemma cacheRefs_PutH {h : Heap} {sc : SearchCacheH} {now : Nat} {q : String}
    {rIn : Nat} {r : Nat} (hr : r ∈ cacheRefs (PutH h sc now q rIn).2) :
    r ∈ cacheRefs sc ∨ r = h.length := by
  simp only [PutH] at hr
  split at hr
  · exact Or.inl hr
  · rcases cacheRefs_putNormalized hr with hmem | heq
    · exact Or.inl (cacheRefs_evictExpired_subset hmem)
    · exact Or.inr heq

/-- The observable shape of `GetH` is determined by the cache alone: either
every heap produces a miss that leaves heap and cache untouched, or there
is a stored reference (of the hit entry) such that every heap produces a
hit returning a fresh reference to a copy of that cell. -/
lemma getScanH_shape (sc : SearchCacheH) (now : Nat) (n : String) :
    (∀ h, getScanH h sc now n = (h, none, sc)) ∨
    ∃ ref key, ref ∈ cacheRefs sc ∧
      ∀ h, getScanH h sc now n =
        (h ++ [copyResults (heapRead h ref)], some h.length,
          moveToEndLocked sc key) := by
  cases hbest : (scanBest sc.entries now sc.ttl (buildTrigrams n)).2 with
  | none =>
    left
    intro h
    simp only [getScanH, hbest]
  | some e =>
    by_cases hth : similarityThreshold ≤
        (scanBest sc.entries now sc.ttl (buildTrigrams n)).1
    · right
      refine ⟨e.results, e.query, ?_, fun h => ?_⟩
      · obtain hacc | ⟨k, hk, _⟩ := scanFold_some now sc.ttl
          (buildTrigrams n) sc.entries (0, none) e hbest
        · simp at hacc
        · exact List.mem_map.mpr ⟨(k, e), hk, rfl⟩
      · simp only [getScanH, hbest]
        rw [if_pos hth]
        rfl
    · left
      intro h
      simp only [getScanH, hbest]
      rw [if_neg hth]

lemma GetH_shape (sc : SearchCacheH) (now : Nat) (q : String) :
    (∀ h, GetH h sc now q = (h, none, sc)) ∨
    ∃ ref key, ref ∈ cacheRefs sc ∧
      ∀ h, GetH h sc now q =
        (h ++ [copyResults (heapRead h ref)], some h.length,
          moveToEndLocked sc key) := by
  by_cases hne : normalizeQuery q = ""
  · left
    intro h
    simp only [GetH, if_pos hne]
  · cases hlook : assocLookup sc.entries (normalizeQuery q) with
    | some entry =>
      by_cases hlive : now - entry.createdAt < sc.ttl
      · right
        refine ⟨entry.results, normalizeQuery q, ?_, fun h => ?_⟩
        · exact List.mem_map.mpr ⟨(normalizeQuery q, entry),
            assocLookup_some_mem hlook, rfl⟩
        · simp only [GetH, if_neg hne, hlook]
          rw [if_pos hlive]
          rfl
      · have heq : ∀ h, GetH h sc now q =
            getScanH h sc now (normalizeQuery q) := by
          intro h
          simp only [GetH, if_neg hne, hlook]
          rw [if_neg hlive]
        rcases getScanH_shape sc now (normalizeQuery q) with hmiss | ⟨ref, key, hm, hh⟩
        · left
          intro h
          rw [heq h, hmiss h]
        · right
          exact ⟨ref, key, hm, fun h => by rw [heq h, hh h]⟩
    | none =>
      have heq : ∀ h, GetH h sc now q =
          getScanH h sc now (normalizeQuery q) := by
        intro h
        simp only [GetH, if_neg hne, hlook]
      rcases getScanH_shape sc now (normalizeQuery q) with hmiss | ⟨ref, key, hm, hh⟩
      · left
        intro h
        rw [heq h, hmiss h]
      · right
        exact ⟨ref, key, hm, fun h => by rw [heq h, hh h]⟩

/-- C8: the cache never aliases caller-owned memory. `PutH` stores only a
fresh reference, so writing through the caller's slice after `Put` leaves
every cell the cache references unchanged; `GetH`'s hit flag, cache state
and returned contents do not depend on cells outside the cache, and the
reference a hit returns is fresh (not held by the cache), so mutating the
returned slice cannot change cached state or later `Get` outcomes. -/
theorem copy_isolation :
    (∀ (h : Heap) (sc : SearchCacheH) (now : Nat) (q : String) (rIn : Nat)
        (v : List SearchResult), rIn < h.length → rIn ∉ cacheRefs sc →
        rIn ∉ cacheRefs (PutH h sc now q rIn).2 ∧
        ∀ r ∈ cacheRefs (PutH h sc now q rIn).2,
          heapRead (heapWrite (PutH h sc now q rIn).1 rIn v) r =
            heapRead (PutH h sc now q rIn).1 r) ∧
    (∀ (h : Heap) (sc : SearchCacheH) (now : Nat) (q : String) (r : Nat)
        (v : List SearchResult), r ∉ cacheRefs sc →
        (GetH (heapWrite h r v) sc now q).2.1.isSome =
          (GetH h sc now q).2.1.isSome ∧
        (GetH (heapWrite h r v) sc now q).2.2 = (GetH h sc now q).2.2 ∧
        ∀ r₁ r₂, (GetH h sc now q).2.1 = some r₁ →
          (GetH (heapWrite h r v) sc now q).2.1 = some r₂ →
          heapRead (GetH (heapWrite h r v) sc now q).1 r₂ =
            heapRead (GetH h sc now q).1 r₁) ∧
    (∀ (h : Heap) (sc : SearchCacheH) (now : Nat) (q : String) (r₁ : Nat),
        (∀ rr ∈ cacheRefs sc, rr < h.length) →
        (GetH h sc now q).2.1 = some r₁ →
        r₁ ∉ cacheRefs (GetH h sc now q).2.2) := by
  refine ⟨?_, ?_, ?_⟩
  · intro h sc now q rIn v hlt hnotin
    have hni : rIn ∉ cacheRefs (PutH h sc now q rIn).2 := by
      intro hmem
      rcases cacheRefs_PutH hmem with hin | heq
      · exact hnotin hin
      · omega
    refine ⟨hni, fun r hr => ?_⟩
    exact heapRead_write_ne (fun hreq => hni (hreq ▸ hr))
  · intro h sc now q r v hr
    rcases GetH_shape sc now q with hmiss | ⟨ref, key, hrefmem, hhit⟩
    · rw [hmiss h, hmiss (heapWrite h r v)]
      exact ⟨rfl, rfl, fun r₁ r₂ h₁ _ => by simp at h₁⟩
    · have hrene : ref ≠ r := fun he => hr (he ▸ hrefmem)
      rw [hhit h, hhit (heapWrite h r v)]
      refine ⟨rfl, rfl, ?_⟩
      intro r₁ r₂ h₁ h₂
      have hr1 : h.length = r₁ := Option.some.inj h₁
      have hr2 : (heapWrite h r v).length = r₂ := Option.some.inj h₂
      rw [← hr1, ← hr2, heapRead_append_self, heapRead_append_self,
        heapRead_write_ne hrene]
  · intro h sc now q r₁ hbound h₁
    rcases GetH_shape sc now q with hmiss | ⟨ref, key, hrefmem, hhit⟩
    · rw [hmiss h] at h₁
      simp at h₁
    · rw [hhit h] at h₁ ⊢
      have hr1 : h.length = r₁ := Option.some.inj h₁
      intro hmem
      have hmem2 : r₁ ∈ cacheRefs sc := hmem
      have := hbound r₁ hmem2
      omega

/-- Fixture: a heap-model cache and heap for the copy-isolation witness. -/
def witHeap : Heap := [[witResultA]]

theorem copy_isolation_witness :
    0 ∉ cacheRefs (PutH witHeap
      { entries := [], order := [], maxEntries := 10, ttl := 100 } 0 "zz" 0).2 ∧
    ∀ r ∈ cacheRefs (PutH witHeap
        { entries := [], order := [], maxEntries := 10, ttl := 100 } 0 "zz" 0).2,
      heapRead (heapWrite (PutH witHeap
        { entries := [], order := [], maxEntries := 10, ttl := 100 }
        0 "zz" 0).1 0 []) r =
        heapRead (PutH witHeap
          { entries := [], order := [], maxEntries := 10, ttl := 100 }
          0 "zz" 0).1 r :=
  copy_isolation.1 witHeap
    { entries := [], order := [], maxEntries := 10, ttl := 100 } 0 "zz" 0 []
    (by decide) (by decide)

end Skills
